import Mathlib

/-!
Verification of the entrofy notebook core (`src/notebooks/Diversity optimizer.ipynb`).

The notebook defines three functions:
* `obj(p, w, q)`   — the weighted negative binary-KL objective with a fixed
  additive log floor `amin = 1e-200`;
* `_entrofy(X, k, w, q, pre_selects)` — one greedy selection run;
* `entrofy(X, k, w, q, pre_selects, n_samples)` — multi-start wrapper keeping
  the best-scoring run.

Floating point numbers are modelled as real numbers (`ℝ`) for the objective
values and as rationals (`ℚ`) for the matrix / weight / target entries, so that
the control flow (validation, loop counters, shape checks) stays decidable.
Ambient numpy random state (`np.random.choice`) is modelled by an explicit
stream of seeds `seeds : ℕ → ℕ`, the draw for trial `t` being `seeds t % n`.
Python exceptions are modelled with `Except`.
-/

namespace Entrofy

open Real List

/-- Model of the numpy float literal `1e-200` used as the additive log floor
(`amin` in the source). -/
noncomputable def amin : ℝ := 1 / 10 ^ 200

/-- One component of the array `H` computed inside `obj`:
`p * (log(p + amin) - log(q + amin)) + pbar * (log(pbar + amin) - log(qbar + amin))`
with `pbar = 1 - p`, `qbar = 1 - q`, at a single attribute. -/
noncomputable def Hterm (a b : ℝ) : ℝ :=
  a * (Real.log (a + amin) - Real.log (b + amin)) +
    (1 - a) * (Real.log (1 - a + amin) - Real.log (1 - b + amin))

/-- Dot product of two equal-length vectors (`H.dot(w)` on aligned shapes). -/
noncomputable def dotl (a b : List ℝ) : ℝ := (List.zipWith (· * ·) a b).sum

/-- Value of `obj(p, w, q)` when all three arrays have the same length:
`- H.dot(w)` with `H` the per-attribute floored binary KL divergence terms. -/
noncomputable def objCore (p w q : List ℝ) : ℝ := -(dotl (List.zipWith Hterm p q) w)

/-- Elementwise binary operation on 1-D numpy arrays: equal lengths operate
pointwise, a length-1 operand broadcasts against the other, and any other
length combination raises a broadcast `ValueError`. -/
def bc2 (f : ℝ → ℝ → ℝ) (a b : List ℝ) : Except String (List ℝ) :=
  if a.length = b.length then .ok (List.zipWith f a b)
  else if a.length = 1 then .ok (b.map (f a.headI))
  else if b.length = 1 then .ok (a.map (fun x => f x b.headI))
  else .error "operands could not be broadcast together"

/-- `np.dot` on 1-D arrays: requires exactly aligned shapes (no broadcasting). -/
noncomputable def dotE (a b : List ℝ) : Except String ℝ :=
  if a.length = b.length then .ok (dotl a b) else .error "shapes not aligned"

/-- Model of `obj(p, w, q)` from the source, 1-D inputs:

    amin = 1e-200
    pbar = 1. - p
    qbar = 1. - q
    H = p * (np.log(p + amin) - np.log(q + amin))
        + pbar * (np.log(pbar + amin) - np.log(qbar + amin))
    return - H.dot(w)

The elementwise subtraction of the two `np.log` arrays is fused into a single
elementwise operation (`np.log` itself is a pure map, so the broadcast happens
exactly at the subtraction, as here). -/
noncomputable def obj (p w q : List ℝ) : Except String ℝ := do
  let pbar := p.map (fun x => 1 - x)
  let qbar := q.map (fun x => 1 - x)
  let t1 ← bc2 (fun x y => Real.log (x + amin) - Real.log (y + amin)) p q
  let d1 ← bc2 (· * ·) p t1
  let t2 ← bc2 (fun x y => Real.log (x + amin) - Real.log (y + amin)) pbar qbar
  let d2 ← bc2 (· * ·) pbar t2
  let h ← bc2 (· + ·) d1 d2
  let d ← dotE h w
  pure (-d)

/-! ### The greedy selection run `_entrofy` and the multi-start wrapper `entrofy` -/

/-- Cast a rational vector to the reals (matrix / weight / target entries are
modelled as rationals so that validation and control flow stay decidable). -/
noncomputable def castL (l : List ℚ) : List ℝ := l.map (fun x => (x : ℝ))

/-- Number of selected rows: `y.sum()` for a boolean mask `y`. -/
def countTrue (y : List Bool) : ℕ := y.count true

/-- Model of `np.flatnonzero(y)`: the ascending list of indices at which the
boolean mask `y` is true. -/
def flatnonzero : List Bool → List ℕ
  | [] => []
  | b :: ys => (if b then [0] else []) ++ (flatnonzero ys).map (· + 1)

/-- Model of the row selection `X[y]` by a boolean mask. -/
def selectRows (X : List (List ℚ)) (y : List Bool) : List (List ℚ) :=
  (List.zip X y).filterMap (fun rb => if rb.2 then some rb.1 else none)

/-- Columnwise sums of a list of rows, `f` columns. -/
def colSums (rows : List (List ℚ)) (f : ℕ) : List ℚ :=
  rows.foldl (fun acc r => List.zipWith (· + ·) acc r) (List.replicate f 0)

/-- Number of attribute columns (`n_attributes = X.shape[1]`). -/
def nAttr (X : List (List ℚ)) : ℕ := X.headI.length

/-- Model of `np.nanmean(X[y], axis=0)`: the columnwise mean of the selected
rows (selected rows of a binary matrix hold no NaN, so `nanmean` is the mean). -/
def pVec (X : List (List ℚ)) (y : List Bool) : List ℚ :=
  let rows := selectRows X y
  (colSums rows (nAttr X)).map (· / (rows.length : ℚ))

/-- One row of `p_new = (p * i + X) / (i + 1.0)`. -/
def pNewRow (p : List ℚ) (i : ℕ) (row : List ℚ) : List ℚ :=
  List.zipWith (fun pj xj => (pj * (i : ℚ) + xj) / ((i : ℚ) + 1)) p row

/-- Marginal gain of row `row`: `obj(p_new[row], w, q) - obj(p, w, q)` (the
vectorized `obj(p_new, w, q)` evaluates exactly this expression rowwise). -/
noncomputable def deltaRow (w q p : List ℚ) (i : ℕ) (row : List ℚ) : ℝ :=
  objCore (castL (pNewRow p i row)) (castL w) (castL q) -
    objCore (castL p) (castL w) (castL q)

/-- The array `delta` after `delta[y] = -np.inf`: marginal gain per row, with
already-selected rows knocked out to `-∞` (modelled as `⊥` in `WithBot ℝ`). -/
noncomputable def deltaVec (X : List (List ℚ)) (w q : List ℚ) (y : List Bool) :
    List (WithBot ℝ) :=
  let i := countTrue y
  let p := pVec X y
  (List.range X.length).map
    (fun e => if y.getD e false then (⊥ : WithBot ℝ)
              else ((deltaRow w q p i (X.getD e [])) : WithBot ℝ))

/-- Maximum entry of a list of extended reals (`-∞` for the empty list). -/
noncomputable def listMax (l : List (WithBot ℝ)) : WithBot ℝ := l.foldr max ⊥

/-- Model of `np.argmax`: index of the first occurrence of the maximum. -/
noncomputable def argmaxIdx (l : List (WithBot ℝ)) : ℕ := l.indexOf (listMax l)

/-- One iteration of the greedy loop body: `y[np.argmax(delta)] = True`. -/
noncomputable def runStep (X : List (List ℚ)) (w q : List ℚ) (y : List Bool) :
    List Bool :=
  y.set (argmaxIdx (deltaVec X w q y)) true

/-- The `while True` greedy loop of `_entrofy`, with explicit fuel: check
`i >= k` and break, else add the best row.  `_entrofy` calls it with fuel `k`,
which is enough since every iteration adds exactly one row. -/
noncomputable def runLoop : ℕ → List (List ℚ) → ℕ → List ℚ → List ℚ →
    List Bool → List Bool
  | 0, _, _, _, _, y => y
  | fuel + 1, X, k, w, q, y =>
    if k ≤ countTrue y then y else runLoop fuel X k w q (runStep X w q y)

/-- `y[pre_selects] = True` for a list of row indices. -/
def setTrues (y : List Bool) (l : List ℕ) : List Bool :=
  l.foldl (fun acc e => acc.set e true) y

/-- Exceptions surfacing from `_entrofy` / `entrofy`: one `AssertionError` per
validation assert (in source order), plus the `ValueError` raised when tuple
unpacking meets a bare index array and the `IndexError` of `results[0]` on an
empty result list. -/
inductive EErr where
  | badK | negW | badQ | lenW | lenQ | valueError | indexError
deriving DecidableEq

/-- Return value of `_entrofy`: either the bare index array of the `k == n`
branch (`return np.arange(n_participants)`) or the `(score, indices)` pair of
the general branch. -/
inductive Ret where
  | bare (idx : List ℕ)
  | pair (score : ℝ) (idx : List ℕ)

/-- The weight vector after the default is filled in:
`if w is None: w = np.ones(n_attributes)`. -/
def wFill (X : List (List ℚ)) (w : Option (List ℚ)) : List ℚ :=
  w.getD (List.replicate (nAttr X) 1)

/-- The target vector after the default is filled in:
`if q is None: q = 0.5 * np.ones(n_attributes)`. -/
def qFill (X : List (List ℚ)) (q : Option (List ℚ)) : List ℚ :=
  q.getD (List.replicate (nAttr X) (1 / 2))

/-- The initial mask of one run: all false, then `y[pre_selects] = True`, where
`pre_selects` defaults to the single random draw `seedval % n`. -/
def initMask (seedval : ℕ) (X : List (List ℚ)) (pre : Option (List ℕ)) :
    List Bool :=
  setTrues (List.replicate X.length false) (pre.getD [seedval % X.length])

/-- Model of `_entrofy(X, k, w=None, q=None, pre_selects=None)` with an
explicit random draw `seedval % n` standing for `np.random.choice(n, size=1)`. -/
noncomputable def _entrofy (seedval : ℕ) (X : List (List ℚ)) (k : ℕ)
    (w q : Option (List ℚ)) (pre : Option (List ℕ)) : Except EErr Ret :=
  let n := X.length
  let f := nAttr X
  let w' := wFill X w
  let q' := qFill X q
  if ¬(0 < k ∧ k ≤ n) then .error .badK
  else if ∃ x ∈ w', x < 0 then .error .negW
  else if ¬(∀ x ∈ q', 0 ≤ x ∧ x ≤ 1) then .error .badQ
  else if ¬(w'.length = f) then .error .lenW
  else if ¬(q'.length = f) then .error .lenQ
  else if k = n then .ok (.bare (List.range n))
  else
    let yF := runLoop k X k w' q' (initMask seedval X pre)
    .ok (.pair (objCore (castL (pVec X yF)) (castL w') (castL q')) (flatnonzero yF))

/-- The `best` component returned by `entrofy`: normally an index array, but a
scalar row index when a bare length-2 array gets tuple-unpacked. -/
abbrev PyIdx := Sum ℕ (List ℕ)

/-- Tuple unpacking `score, solution = r` of one `_entrofy` result: a `pair`
unpacks as itself; a bare array unpacks positionally when it has exactly two
entries (first entry plays the score, second the solution) and raises
`ValueError` otherwise. -/
noncomputable def unpackRR (r : Ret) : Except EErr (ℝ × PyIdx) :=
  match r with
  | .pair s idx => .ok (s, .inr idx)
  | .bare idx =>
    if idx.length = 2 then .ok (((idx.getD 0 0 : ℕ) : ℝ), .inl (idx.getD 1 0))
    else .error .valueError

/-- The comparison step of `entrofy`'s search for the best result:
`if score > max_score` replaces the incumbent, so ties keep the earlier trial. -/
noncomputable def pickBest (best x : ℝ × PyIdx) : ℝ × PyIdx :=
  if best.1 < x.1 then x else best

/-- Exception-propagating map, modelling a Python list comprehension over
fallible calls: the first raised exception aborts the whole comprehension. -/
noncomputable def mapE {ε α β : Type} (f : α → Except ε β) : List α → Except ε (List β)
  | [] => .ok []
  | a :: as => do
    let b ← f a
    let bs ← mapE f as
    .ok (b :: bs)

/-- The selection of the best result from the trial list:
`max_score, best = results[0]` (an `IndexError` on an empty list), then the
`for score, solution in results[1:]` loop keeping the strictly greater score. -/
noncomputable def selectBest : List Ret → Except EErr (ℝ × PyIdx)
  | [] => .error .indexError
  | r0 :: rest => do
    let p0 ← unpackRR r0
    let ps ← mapE unpackRR rest
    pure (ps.foldl pickBest p0)

/-- Model of `entrofy(X, k, w=None, q=None, pre_selects=None, n_samples=15)`:
force `n_samples = 1` when pre-selects are given, run the trials, then keep the
result with the strictly greatest score. -/
noncomputable def entrofy (seeds : ℕ → ℕ) (X : List (List ℚ)) (k : ℕ)
    (w q : Option (List ℚ)) (pre : Option (List ℕ)) (n_samples : ℕ) :
    Except EErr (ℝ × PyIdx) := do
  let ns := if pre.isSome then 1 else n_samples
  let results ← mapE (fun t => _entrofy (seeds t) X k w q pre) (List.range ns)
  selectBest results

/-! ### Lemmas about masks and `flatnonzero` -/

theorem flatnonzero_length (y : List Bool) :
    (flatnonzero y).length = countTrue y := by
  induction y with
  | nil => simp [flatnonzero, countTrue]
  | cons b ys ih =>
    cases b <;> simp [flatnonzero, countTrue, List.count_cons] at * <;> omega

theorem flatnonzero_sorted (y : List Bool) :
    List.Sorted (· < ·) (flatnonzero y) := by
  induction y with
  | nil => simp [flatnonzero]
  | cons b ys ih =>
    have hmap : List.Sorted (· < ·) ((flatnonzero ys).map (· + 1)) := by
      rw [List.Sorted, List.pairwise_map]
      exact ih.imp (by omega)
    cases b
    · simpa [flatnonzero] using hmap
    · rw [show flatnonzero (true :: ys) = [0] ++ (flatnonzero ys).map (· + 1) from rfl,
        List.Sorted, List.pairwise_append]
      refine ⟨by simp, hmap, ?_⟩
      intro a ha b hb
      obtain rfl := List.mem_singleton.1 ha
      rcases List.mem_map.1 hb with ⟨c, _, rfl⟩
      omega

theorem mem_flatnonzero (y : List Bool) (e : ℕ) :
    e ∈ flatnonzero y ↔ y.getD e false = true := by
  induction y generalizing e with
  | nil => simp [flatnonzero]
  | cons b ys ih =>
    cases e with
    | zero =>
      cases b <;> simp [flatnonzero]
    | succ e =>
      cases b <;> simp [flatnonzero, ih e]

theorem mem_flatnonzero_lt (y : List Bool) (e : ℕ) (h : e ∈ flatnonzero y) :
    e < y.length := by
  by_contra hge
  rw [mem_flatnonzero, List.getD_eq_default _ _ (by omega)] at h
  exact Bool.false_ne_true h

theorem flatnonzero_nodup (y : List Bool) : (flatnonzero y).Nodup :=
  (flatnonzero_sorted y).nodup

theorem countTrue_le_length (y : List Bool) : countTrue y ≤ y.length :=
  List.count_le_length _ _

theorem getD_set_self (y : List Bool) (e : ℕ) (b : Bool) (h : e < y.length) :
    (y.set e b).getD e false = b := by
  rw [List.getD_eq_getElem?_getD, List.getElem?_set_eq_of_lt b h]
  rfl

theorem getD_set_ne (y : List Bool) (e j : ℕ) (b : Bool) (h : e ≠ j) :
    (y.set e b).getD j false = y.getD j false := by
  rw [List.getD_eq_getElem?_getD, List.getElem?_set_ne h, ← List.getD_eq_getElem?_getD]

theorem countTrue_set_true (y : List Bool) (e : ℕ) (he : e < y.length)
    (hf : y.getD e false = false) :
    countTrue (y.set e true) = countTrue y + 1 := by
  induction y generalizing e with
  | nil => simp at he
  | cons b ys ih =>
    cases e with
    | zero =>
      simp only [List.getD_cons_zero] at hf
      subst hf
      simp [countTrue, List.count_cons]
    | succ e =>
      simp only [List.length_cons, Nat.succ_lt_succ_iff] at he
      simp only [List.getD_cons_succ] at hf
      simp only [List.set_cons_succ, countTrue, List.count_cons]
      have := ih e he hf
      simp only [countTrue] at this
      omega

theorem countTrue_le_set_true (y : List Bool) (e : ℕ) :
    countTrue y ≤ countTrue (y.set e true) := by
  induction y generalizing e with
  | nil => simp
  | cons b ys ih =>
    cases e with
    | zero => cases b <;> simp [countTrue, List.count_cons]
    | succ e =>
      simp only [List.set_cons_succ, countTrue, List.count_cons]
      have := ih e
      simp only [countTrue] at this
      omega

theorem getD_set_true_of_true (y : List Bool) (e j : ℕ)
    (h : y.getD j false = true) : (y.set e true).getD j false = true := by
  rcases eq_or_ne e j with rfl | hne
  · rcases lt_or_le e y.length with hlt | hge
    · exact getD_set_self y e true hlt
    · rw [List.getD_eq_default _ _ (by simpa using hge)]
      rw [List.getD_eq_default _ _ hge] at h
      exact h
  · rw [getD_set_ne y e j true hne]; exact h

theorem countTrue_eq_length_of_all_true (y : List Bool)
    (h : ∀ e, e < y.length → y.getD e false = true) : countTrue y = y.length := by
  induction y with
  | nil => simp [countTrue]
  | cons b ys ih =>
    have hb : b = true := h 0 (by simp)
    subst hb
    have : countTrue ys = ys.length := by
      refine ih fun e he => ?_
      simpa using h (e + 1) (by simpa using he)
    simp [countTrue, List.count_cons] at *
    omega

theorem exists_false_of_countTrue_lt (y : List Bool)
    (h : countTrue y < y.length) : ∃ e, e < y.length ∧ y.getD e false = false := by
  by_contra hall
  push_neg at hall
  have : countTrue y = y.length :=
    countTrue_eq_length_of_all_true y fun e he => by
      have hne := hall e he
      cases hy : y.getD e false
      · exact absurd hy hne
      · rfl
  omega

/-! ### Lemmas about `setTrues` (the pre-select initialization) -/

theorem setTrues_length (y : List Bool) (l : List ℕ) :
    (setTrues y l).length = y.length := by
  induction l generalizing y with
  | nil => rfl
  | cons e l ih =>
    show (setTrues (y.set e true) l).length = y.length
    rw [ih (y.set e true), List.length_set]

theorem getD_setTrues (y : List Bool) (l : List ℕ) (j : ℕ) :
    (setTrues y l).getD j false = (y.getD j false || decide (j ∈ l) && decide (j < y.length)) := by
  induction l generalizing y with
  | nil => simp [setTrues]
  | cons e l ih =>
    show (setTrues (y.set e true) l).getD j false = _
    rw [ih (y.set e true)]
    rcases eq_or_ne e j with rfl | hne
    · rcases lt_or_le e y.length with hlt | hge
      · simp [getD_set_self y e true hlt, hlt]
      · rw [List.getD_eq_default _ _ (by simpa using hge),
          List.getD_eq_default _ _ hge]
        simp [Nat.not_lt.2 hge]
    · rw [getD_set_ne y e j true hne]
      simp [hne, Ne.symm hne]


/-! ### Lemmas about `listMax` and `argmaxIdx` (`np.argmax` semantics) -/

theorem listMax_cons (x : WithBot ℝ) (xs : List (WithBot ℝ)) :
    listMax (x :: xs) = max x (listMax xs) := rfl

theorem listMax_mem (l : List (WithBot ℝ)) (h : l ≠ []) : listMax l ∈ l := by
  induction l with
  | nil => exact absurd rfl h
  | cons x xs ih =>
    rcases max_choice x (listMax xs) with hm | hm
    · rw [listMax_cons, hm]; exact List.mem_cons_self _ _
    · cases xs with
      | nil =>
        have hx : listMax [x] = x := max_eq_left bot_le
        rw [hx]; exact List.mem_cons_self _ _
      | cons z zs =>
        rw [listMax_cons, hm]
        exact List.mem_cons_of_mem _ (ih (by simp))

theorem le_listMax (l : List (WithBot ℝ)) (a : WithBot ℝ) (h : a ∈ l) :
    a ≤ listMax l := by
  induction l with
  | nil => simp at h
  | cons x xs ih =>
    rw [listMax_cons]
    rcases List.mem_cons.1 h with rfl | hm
    · exact le_max_left _ _
    · exact le_trans (ih hm) (le_max_right _ _)

theorem argmaxIdx_lt (l : List (WithBot ℝ)) (h : l ≠ []) :
    argmaxIdx l < l.length :=
  List.indexOf_lt_length.2 (listMax_mem l h)

theorem getD_argmaxIdx (l : List (WithBot ℝ)) (h : l ≠ []) :
    l.getD (argmaxIdx l) ⊥ = listMax l := by
  rw [List.getD_eq_getElem l _ (argmaxIdx_lt l h)]
  exact List.getElem_indexOf (List.indexOf_lt_length.2 (listMax_mem l h))

theorem getD_ne_of_lt_indexOf {α : Type*} [DecidableEq α] (l : List α)
    (a d : α) (j : ℕ) (h : j < l.indexOf a) : l.getD j d ≠ a := by
  induction l generalizing j with
  | nil => simp [List.indexOf] at h
  | cons x xs ih =>
    rw [List.indexOf_cons] at h
    cases hxa : x == a with
    | true => rw [hxa] at h; simp at h
    | false =>
      rw [hxa, cond_false] at h
      cases j with
      | zero =>
        simpa using beq_eq_false_iff_ne.1 hxa
      | succ j =>
        rw [List.getD_cons_succ]
        exact ih j (by omega)

theorem argmaxIdx_first (l : List (WithBot ℝ)) (j : ℕ) (h : j < argmaxIdx l) :
    l.getD j ⊥ ≠ listMax l :=
  getD_ne_of_lt_indexOf l (listMax l) ⊥ j h

/-! ### Lemmas about `deltaVec`, `runStep` and `runLoop` -/

theorem deltaVec_length (X : List (List ℚ)) (w q : List ℚ) (y : List Bool) :
    (deltaVec X w q y).length = X.length := by
  simp [deltaVec]

theorem deltaVec_getD (X : List (List ℚ)) (w q : List ℚ) (y : List Bool)
    (e : ℕ) (he : e < X.length) :
    (deltaVec X w q y).getD e ⊥ =
      if y.getD e false then (⊥ : WithBot ℝ)
      else ((deltaRow w q (pVec X y) (countTrue y) (X.getD e [])) : WithBot ℝ) := by
  have hlen : e < (deltaVec X w q y).length := by
    rw [deltaVec_length]; exact he
  rw [List.getD_eq_getElem _ _ hlen]
  simp [deltaVec]

theorem runStep_picks_unselected (X : List (List ℚ)) (w q : List ℚ)
    (y : List Bool) (hy : y.length = X.length) (hc : countTrue y < X.length) :
    argmaxIdx (deltaVec X w q y) < X.length ∧
      y.getD (argmaxIdx (deltaVec X w q y)) false = false := by
  have hn : 0 < X.length := Nat.pos_of_ne_zero (by omega)
  have hne : deltaVec X w q y ≠ [] := by
    intro hcon
    have := deltaVec_length X w q y
    rw [hcon] at this
    simp at this
    omega
  have hidx : argmaxIdx (deltaVec X w q y) < X.length := by
    have := argmaxIdx_lt _ hne
    rwa [deltaVec_length] at this
  refine ⟨hidx, ?_⟩
  by_contra htrue
  have htrue' : y.getD (argmaxIdx (deltaVec X w q y)) false = true := by
    cases hv : y.getD (argmaxIdx (deltaVec X w q y)) false
    · exact absurd hv htrue
    · rfl
  have hbot : (deltaVec X w q y).getD (argmaxIdx (deltaVec X w q y)) ⊥ = ⊥ := by
    rw [deltaVec_getD X w q y _ hidx, htrue', if_pos rfl]
  have hmaxbot : listMax (deltaVec X w q y) = ⊥ := by
    rw [← getD_argmaxIdx _ hne, hbot]
  obtain ⟨e, helt, hef⟩ := exists_false_of_countTrue_lt y (by omega)
  have helt' : e < X.length := by omega
  have hcoe : (deltaVec X w q y).getD e ⊥ =
      ((deltaRow w q (pVec X y) (countTrue y) (X.getD e [])) : WithBot ℝ) := by
    rw [deltaVec_getD X w q y e helt', hef]
    simp
  have hmem : (deltaVec X w q y).getD e ⊥ ∈ deltaVec X w q y := by
    rw [List.getD_eq_getElem _ _ (by rw [deltaVec_length]; exact helt')]
    exact List.getElem_mem _
  have hle := le_listMax _ _ hmem
  rw [hmaxbot, le_bot_iff, hcoe] at hle
  exact WithBot.coe_ne_bot hle

theorem runStep_length (X : List (List ℚ)) (w q : List ℚ) (y : List Bool) :
    (runStep X w q y).length = y.length :=
  List.length_set _ _ _

theorem countTrue_runStep (X : List (List ℚ)) (w q : List ℚ) (y : List Bool)
    (hy : y.length = X.length) (hc : countTrue y < X.length) :
    countTrue (runStep X w q y) = countTrue y + 1 := by
  obtain ⟨hidx, hfalse⟩ := runStep_picks_unselected X w q y hy hc
  exact countTrue_set_true y _ (by omega) hfalse

theorem countTrue_le_runStep (X : List (List ℚ)) (w q : List ℚ) (y : List Bool) :
    countTrue y ≤ countTrue (runStep X w q y) :=
  countTrue_le_set_true y _

theorem runStep_preserves_true (X : List (List ℚ)) (w q : List ℚ)
    (y : List Bool) (j : ℕ) (h : y.getD j false = true) :
    (runStep X w q y).getD j false = true :=
  getD_set_true_of_true y _ j h

theorem runLoop_length (fuel : ℕ) (X : List (List ℚ)) (k : ℕ) (w q : List ℚ)
    (y : List Bool) : (runLoop fuel X k w q y).length = y.length := by
  induction fuel generalizing y with
  | zero => rfl
  | succ fuel ih =>
    show (if k ≤ countTrue y then y else runLoop fuel X k w q (runStep X w q y)).length = _
    split
    · rfl
    · rw [ih (runStep X w q y), runStep_length]

theorem runLoop_count (fuel : ℕ) (X : List (List ℚ)) (k : ℕ) (w q : List ℚ)
    (y : List Bool) (hy : y.length = X.length) (hk : k < X.length)
    (hc : countTrue y ≤ k) (hfuel : k ≤ countTrue y + fuel) :
    countTrue (runLoop fuel X k w q y) = k := by
  induction fuel generalizing y with
  | zero => simpa [runLoop] using by omega
  | succ fuel ih =>
    show countTrue (if k ≤ countTrue y then y
      else runLoop fuel X k w q (runStep X w q y)) = k
    split
    · omega
    · rename_i hlt
      have hstep := countTrue_runStep X w q y hy (by omega)
      exact ih (runStep X w q y) ((runStep_length X w q y).trans hy)
        (by omega) (by omega)

theorem runLoop_count_le (fuel : ℕ) (X : List (List ℚ)) (k : ℕ) (w q : List ℚ)
    (y : List Bool) (hy : y.length = X.length) (hk : k < X.length)
    (hc : countTrue y ≤ k) :
    countTrue (runLoop fuel X k w q y) ≤ k := by
  induction fuel generalizing y with
  | zero => simpa [runLoop]
  | succ fuel ih =>
    show countTrue (if k ≤ countTrue y then y
      else runLoop fuel X k w q (runStep X w q y)) ≤ k
    split
    · omega
    · rename_i hlt
      have hstep := countTrue_runStep X w q y hy (by omega)
      exact ih (runStep X w q y) ((runStep_length X w q y).trans hy) (by omega)

theorem runLoop_monotone_start (fuel : ℕ) (X : List (List ℚ)) (k : ℕ)
    (w q : List ℚ) (y : List Bool) :
    countTrue y ≤ countTrue (runLoop fuel X k w q y) := by
  induction fuel generalizing y with
  | zero => simp [runLoop]
  | succ fuel ih =>
    show countTrue y ≤ countTrue (if k ≤ countTrue y then y
      else runLoop fuel X k w q (runStep X w q y))
    split
    · omega
    · exact le_trans (countTrue_le_runStep X w q y) (ih (runStep X w q y))

theorem runLoop_succ_eq (j : ℕ) (X : List (List ℚ)) (k : ℕ) (w q : List ℚ)
    (y : List Bool) :
    runLoop (j + 1) X k w q y =
      (fun z => if k ≤ countTrue z then z else runStep X w q z)
        (runLoop j X k w q y) := by
  induction j generalizing y with
  | zero => rfl
  | succ j ih =>
    show (if k ≤ countTrue y then y
        else runLoop (j + 1) X k w q (runStep X w q y)) = _
    by_cases hky : k ≤ countTrue y
    · rw [if_pos hky]
      have hz : runLoop (j + 1 + 1) X k w q y = y := by
        show (if k ≤ countTrue y then y else _) = y
        rw [if_pos hky]
      have hz' : runLoop (j + 1) X k w q y = y := by
        show (if k ≤ countTrue y then y else _) = y
        rw [if_pos hky]
      simp only [hz']
      rw [if_pos hky]
    · rw [if_neg hky, ih (runStep X w q y)]
      have : runLoop (j + 1) X k w q y = runLoop j X k w q (runStep X w q y) := by
        show (if k ≤ countTrue y then y else _) = _
        rw [if_neg hky]
      rw [this]

theorem runLoop_iter_monotone (j : ℕ) (X : List (List ℚ)) (k : ℕ)
    (w q : List ℚ) (y : List Bool) :
    countTrue (runLoop j X k w q y) ≤ countTrue (runLoop (j + 1) X k w q y) := by
  rw [runLoop_succ_eq]
  set z := runLoop j X k w q y
  show countTrue z ≤ countTrue (if k ≤ countTrue z then z else runStep X w q z)
  split
  · omega
  · exact countTrue_le_runStep X w q z

theorem runLoop_stop (fuel : ℕ) (X : List (List ℚ)) (k : ℕ) (w q : List ℚ)
    (y : List Bool) (hfuel : 0 < fuel) (h : k ≤ countTrue y) :
    runLoop fuel X k w q y = y := by
  cases fuel with
  | zero => omega
  | succ fuel =>
    show (if k ≤ countTrue y then y else _) = y
    rw [if_pos h]

theorem runLoop_preserves_true (fuel : ℕ) (X : List (List ℚ)) (k : ℕ)
    (w q : List ℚ) (y : List Bool) (j : ℕ) (h : y.getD j false = true) :
    (runLoop fuel X k w q y).getD j false = true := by
  induction fuel generalizing y with
  | zero => exact h
  | succ fuel ih =>
    show (if k ≤ countTrue y then y
      else runLoop fuel X k w q (runStep X w q y)).getD j false = true
    split
    · exact h
    · exact ih (runStep X w q y) (runStep_preserves_true X w q y j h)

/-! ### Structure of `_entrofy` and `entrofy` on validated inputs -/

theorem _entrofy_ok (seedval : ℕ) (X : List (List ℚ)) (k : ℕ)
    (w q : Option (List ℚ)) (pre : Option (List ℕ))
    (hk0 : 0 < k) (hkn : k < X.length)
    (hw : ∀ x ∈ wFill X w, 0 ≤ x)
    (hq : ∀ x ∈ qFill X q, 0 ≤ x ∧ x ≤ 1)
    (hwl : (wFill X w).length = nAttr X)
    (hql : (qFill X q).length = nAttr X) :
    _entrofy seedval X k w q pre =
      .ok (.pair
        (objCore
          (castL (pVec X (runLoop k X k (wFill X w) (qFill X q) (initMask seedval X pre))))
          (castL (wFill X w)) (castL (qFill X q)))
        (flatnonzero (runLoop k X k (wFill X w) (qFill X q) (initMask seedval X pre)))) := by
  simp only [_entrofy]
  rw [if_neg (not_not_intro ⟨hk0, hkn.le⟩)]
  rw [if_neg (by push_neg; intro x hx; exact hw x hx)]
  rw [if_neg (not_not_intro hq)]
  rw [if_neg (not_not_intro hwl)]
  rw [if_neg (not_not_intro hql)]
  rw [if_neg (Nat.ne_of_lt hkn)]

theorem mapE_ok {ε α β : Type} (f : α → Except ε β) (g : α → β) (l : List α)
    (h : ∀ a ∈ l, f a = .ok (g a)) : mapE f l = .ok (l.map g) := by
  induction l with
  | nil => rfl
  | cons a as ih =>
    show (do
      let b ← f a
      let bs ← mapE f as
      (.ok (b :: bs) : Except ε (List β))) = _
    rw [h a (List.mem_cons_self a as),
      ih (fun x hx => h x (List.mem_cons_of_mem a hx))]
    rfl

theorem mapE_error_head {ε α β : Type} (f : α → Except ε β) (e : ε) (a : α)
    (as : List α) (h : f a = .error e) : mapE f (a :: as) = .error e := by
  show (do
    let b ← f a
    let bs ← mapE f as
    (.ok (b :: bs) : Except ε (List β))) = _
  rw [h]
  rfl

theorem foldl_pickBest_split (rest : List (ℝ × PyIdx)) (init : ℝ × PyIdx) :
    ∃ pre suf, init :: rest = pre ++ (rest.foldl pickBest init) :: suf ∧
      (∀ x ∈ pre, x.1 < (rest.foldl pickBest init).1) ∧
      (∀ x ∈ suf, x.1 ≤ (rest.foldl pickBest init).1) := by
  induction rest generalizing init with
  | nil => exact ⟨[], [], rfl, by simp, by simp⟩
  | cons r rs ih =>
    rw [List.foldl_cons]
    by_cases hlt : init.1 < r.1
    · have hpb : pickBest init r = r := by rw [pickBest, if_pos hlt]
      rw [hpb]
      obtain ⟨pre', suf', hsplit, hpre', hsuf'⟩ := ih r
      refine ⟨init :: pre', suf', ?_, ?_, hsuf'⟩
      · rw [List.cons_append, ← hsplit]
      · intro x hx
        rcases List.mem_cons.1 hx with rfl | hx'
        · cases pre' with
          | nil =>
            have hbr : rs.foldl pickBest r = r := by
              have := hsplit
              rw [List.nil_append] at this
              exact (List.cons.inj this).1.symm
            rw [hbr]; exact hlt
          | cons p ps =>
            have hp : p = r := by
              have := hsplit
              rw [List.cons_append] at this
              exact (List.cons.inj this).1.symm
            have hrmem : r ∈ p :: ps := hp ▸ List.mem_cons_self p ps
            exact lt_trans hlt (hpre' r hrmem)
        · exact hpre' x hx'
    · have hpb : pickBest init r = init := by rw [pickBest, if_neg hlt]
      rw [hpb]
      obtain ⟨pre', suf', hsplit, hpre', hsuf'⟩ := ih init
      cases pre' with
      | nil =>
        rw [List.nil_append] at hsplit
        obtain ⟨hbest, hsuf⟩ := List.cons.inj hsplit
        refine ⟨[], r :: rs, by rw [List.nil_append, ← hbest], by simp, ?_⟩
        intro x hx
        rcases List.mem_cons.1 hx with rfl | hx'
        · rw [← hbest]; exact le_of_not_lt hlt
        · rw [hsuf] at hx'
          exact hsuf' x hx'
      | cons p ps =>
        rw [List.cons_append] at hsplit
        obtain ⟨hp, hrest⟩ := List.cons.inj hsplit
        refine ⟨init :: r :: ps, suf', ?_, ?_, hsuf'⟩
        · rw [List.cons_append, List.cons_append, ← hrest]
        · intro x hx
          have hinit : init.1 < (rs.foldl pickBest init).1 := by
            have hpi := hpre' p (List.mem_cons_self p ps)
            rw [← hp] at hpi
            exact hpi
          rcases List.mem_cons.1 hx with rfl | hx'
          · exact hinit
          · rcases List.mem_cons.1 hx' with rfl | hx''
            · exact lt_of_le_of_lt (le_of_not_lt hlt) hinit
            · exact hpre' x (List.mem_cons_of_mem p hx'')

/-! ### Per-trial accessors and the fold characterization of `entrofy` -/

/-- The final mask of trial `t` inside `entrofy` (validated non-degenerate
inputs): the greedy loop run from the trial's initial mask. -/
noncomputable def trialMask (seeds : ℕ → ℕ) (X : List (List ℚ)) (k : ℕ)
    (w q : Option (List ℚ)) (pre : Option (List ℕ)) (t : ℕ) : List Bool :=
  runLoop k X k (wFill X w) (qFill X q) (initMask (seeds t) X pre)

/-- The score of trial `t`: `obj(np.nanmean(X[y], axis=0), w, q)` at the final
mask of that trial. -/
noncomputable def trialScore (seeds : ℕ → ℕ) (X : List (List ℚ)) (k : ℕ)
    (w q : Option (List ℚ)) (pre : Option (List ℕ)) (t : ℕ) : ℝ :=
  objCore (castL (pVec X (trialMask seeds X k w q pre t)))
    (castL (wFill X w)) (castL (qFill X q))

/-- The selected indices of trial `t`: `np.flatnonzero(y)` at the final mask. -/
noncomputable def trialIdx (seeds : ℕ → ℕ) (X : List (List ℚ)) (k : ℕ)
    (w q : Option (List ℚ)) (pre : Option (List ℕ)) (t : ℕ) : List ℕ :=
  flatnonzero (trialMask seeds X k w q pre t)

/-- The `(score, solution)` pair of trial `t` as seen by `entrofy`'s search for
the maximum. -/
noncomputable def trialPair (seeds : ℕ → ℕ) (X : List (List ℚ)) (k : ℕ)
    (w q : Option (List ℚ)) (pre : Option (List ℕ)) (t : ℕ) : ℝ × PyIdx :=
  (trialScore seeds X k w q pre t, .inr (trialIdx seeds X k w q pre t))

theorem _entrofy_ok_trial (seeds : ℕ → ℕ) (X : List (List ℚ)) (k : ℕ)
    (w q : Option (List ℚ)) (pre : Option (List ℕ)) (t : ℕ)
    (hk0 : 0 < k) (hkn : k < X.length)
    (hw : ∀ x ∈ wFill X w, 0 ≤ x)
    (hq : ∀ x ∈ qFill X q, 0 ≤ x ∧ x ≤ 1)
    (hwl : (wFill X w).length = nAttr X)
    (hql : (qFill X q).length = nAttr X) :
    _entrofy (seeds t) X k w q pre =
      .ok (.pair (trialScore seeds X k w q pre t) (trialIdx seeds X k w q pre t)) :=
  _entrofy_ok (seeds t) X k w q pre hk0 hkn hw hq hwl hql

/-- Total projection of an `_entrofy` return value to the unpacked pair (only
meaningful on `pair` values; used on validated runs where all results are
pairs). -/
noncomputable def toPairJ (r : Ret) : ℝ × PyIdx :=
  match r with
  | .pair s idx => (s, .inr idx)
  | .bare idx => (0, .inr idx)

theorem entrofy_eq_fold (seeds : ℕ → ℕ) (X : List (List ℚ)) (k : ℕ)
    (w q : Option (List ℚ)) (pre : Option (List ℕ)) (n_samples : ℕ)
    (hk0 : 0 < k) (hkn : k < X.length)
    (hw : ∀ x ∈ wFill X w, 0 ≤ x)
    (hq : ∀ x ∈ qFill X q, 0 ≤ x ∧ x ≤ 1)
    (hwl : (wFill X w).length = nAttr X)
    (hql : (qFill X q).length = nAttr X)
    (hns : 0 < n_samples) :
    entrofy seeds X k w q pre n_samples =
      .ok (((List.range ((if pre.isSome then 1 else n_samples) - 1)).map
          (fun t => trialPair seeds X k w q pre (t + 1))).foldl pickBest
        (trialPair seeds X k w q pre 0)) := by
  have hns1 : 0 < (if pre.isSome then 1 else n_samples) := by
    split
    · omega
    · exact hns
  obtain ⟨M, hM⟩ : ∃ M, (if pre.isSome then 1 else n_samples) = M + 1 :=
    ⟨(if pre.isSome then 1 else n_samples) - 1, by omega⟩
  simp only [entrofy, hM]
  rw [List.range_succ_eq_map]
  rw [mapE_ok (fun t => _entrofy (seeds t) X k w q pre)
    (fun t => .pair (trialScore seeds X k w q pre t) (trialIdx seeds X k w q pre t))
    _ (fun t _ => _entrofy_ok_trial seeds X k w q pre t hk0 hkn hw hq hwl hql)]
  show selectBest ((0 :: (List.range M).map Nat.succ).map
      (fun t => Ret.pair (trialScore seeds X k w q pre t)
        (trialIdx seeds X k w q pre t))) = _
  rw [List.map_cons, List.map_map]
  show (do
    let p0 ← unpackRR (.pair (trialScore seeds X k w q pre 0) (trialIdx seeds X k w q pre 0))
    let ps ← mapE unpackRR ((List.range M).map
      ((fun t => Ret.pair (trialScore seeds X k w q pre t)
        (trialIdx seeds X k w q pre t)) ∘ Nat.succ))
    pure (ps.foldl pickBest p0)) = _
  rw [mapE_ok unpackRR toPairJ _ (by
    intro r hr
    rcases List.mem_map.1 hr with ⟨t, _, rfl⟩
    rfl)]
  rw [List.map_map]
  have hMeq : M = (if pre.isSome then 1 else n_samples) - 1 := by omega
  subst hMeq
  rfl

theorem getElem_cons_mem_tail {α : Type*} (a : α) (l : List α) (m : ℕ)
    (h : m < (a :: l).length) (hm : 0 < m) : (a :: l)[m] ∈ l := by
  cases m with
  | zero => exact absurd hm (lt_irrefl 0)
  | succ m =>
    rw [List.getElem_cons_succ]
    exact List.getElem_mem _

/-- The `foldl pickBest` of the trial pairs is the earliest trial attaining the
maximal score. -/
theorem fold_best_spec (g : ℕ → ℝ × PyIdx) (M : ℕ) :
    ∃ i, i < M + 1 ∧
      ((List.range M).map (fun t => g (t + 1))).foldl pickBest (g 0) = g i ∧
      (∀ j, j < M + 1 →
        (g j).1 ≤ (((List.range M).map (fun t => g (t + 1))).foldl pickBest (g 0)).1) ∧
      (∀ j, j < i →
        (g j).1 < (((List.range M).map (fun t => g (t + 1))).foldl pickBest (g 0)).1) := by
  obtain ⟨pre, suf, hsplit, hpre, hsuf⟩ :=
    foldl_pickBest_split ((List.range M).map (fun t => g (t + 1))) (g 0)
  set best := ((List.range M).map (fun t => g (t + 1))).foldl pickBest (g 0) with hbest
  have hfull : (List.range (M + 1)).map g = pre ++ best :: suf := by
    rw [List.range_succ_eq_map, List.map_cons, List.map_map]
    exact hsplit
  have hlen : M + 1 = pre.length + (suf.length + 1) := by
    have := congrArg List.length hfull
    simpa using this
  have hilt : pre.length < M + 1 := by omega
  have hgetfull : ∀ j (hj : j < M + 1), g j = (pre ++ best :: suf).getD j (g 0) := by
    intro j hj
    rw [← hfull, List.getD_eq_getElem _ _ (by simpa using hj)]
    simp
  have hgi : g pre.length = best := by
    rw [hgetfull pre.length hilt,
      List.getD_eq_getElem _ _ (by
        simp only [List.length_append, List.length_cons]
        omega),
      List.getElem_append_right (le_refl pre.length)]
    simp
  refine ⟨pre.length, hilt, hgi.symm, ?_, ?_⟩
  · intro j hj
    rcases lt_trichotomy j pre.length with hlt | heq | hgt
    · have : g j ∈ pre := by
        rw [hgetfull j hj, List.getD_eq_getElem _ _ (by
            simp only [List.length_append, List.length_cons]
            omega),
          List.getElem_append_left (by omega)]
        exact List.getElem_mem _
      exact le_of_lt (hpre _ this)
    · rw [heq, hgi]
    · have : g j ∈ suf := by
        rw [hgetfull j hj, List.getD_eq_getElem _ _ (by
            simp only [List.length_append, List.length_cons]
            omega),
          List.getElem_append_right (by omega)]
        exact getElem_cons_mem_tail best suf _ _ (by omega)
      exact hsuf _ this
  · intro j hj
    have : g j ∈ pre := by
      rw [hgetfull j (by omega), List.getD_eq_getElem _ _ (by
          simp only [List.length_append, List.length_cons]
          omega),
        List.getElem_append_left (by omega)]
      exact List.getElem_mem _
    exact hpre _ this

/-! ### The initial mask -/

theorem getD_replicate_false (n j : ℕ) :
    (List.replicate n false).getD j false = false := by
  rcases lt_or_le j n with h | h
  · rw [List.getD_eq_getElem _ _ (by simpa using h)]
    exact List.getElem_replicate _ _
  · exact List.getD_eq_default _ _ (by simpa using h)

theorem initMask_length (s : ℕ) (X : List (List ℚ)) (pre : Option (List ℕ)) :
    (initMask s X pre).length = X.length := by
  rw [initMask, setTrues_length, List.length_replicate]

theorem getD_initMask (s : ℕ) (X : List (List ℚ)) (pre : Option (List ℕ)) (j : ℕ) :
    (initMask s X pre).getD j false =
      (decide (j ∈ pre.getD [s % X.length]) && decide (j < X.length)) := by
  rw [initMask, getD_setTrues, getD_replicate_false, List.length_replicate]
  simp

theorem countTrue_eq_flatnonzero_card (y : List Bool) :
    countTrue y = (flatnonzero y).toFinset.card := by
  rw [List.toFinset_card_of_nodup (flatnonzero_nodup y), flatnonzero_length]

theorem mem_flatnonzero_initMask (s : ℕ) (X : List (List ℚ))
    (pre : Option (List ℕ)) (a : ℕ)
    (hl : ∀ x ∈ pre.getD [s % X.length], x < X.length) :
    a ∈ flatnonzero (initMask s X pre) ↔ a ∈ pre.getD [s % X.length] := by
  rw [mem_flatnonzero, getD_initMask]
  constructor
  · intro h
    simp only [Bool.and_eq_true, decide_eq_true_eq] at h
    exact h.1
  · intro ha
    simp [ha, hl a ha]

theorem countTrue_initMask (s : ℕ) (X : List (List ℚ)) (pre : Option (List ℕ))
    (hl : ∀ x ∈ pre.getD [s % X.length], x < X.length) :
    countTrue (initMask s X pre) = (pre.getD [s % X.length]).toFinset.card := by
  rw [countTrue_eq_flatnonzero_card]
  congr 1
  ext a
  simp only [List.mem_toFinset]
  exact mem_flatnonzero_initMask s X pre a hl

theorem initMask_bounds (s : ℕ) (X : List (List ℚ)) (k : ℕ)
    (pre : Option (List ℕ)) (hk0 : 0 < k) (hn : 0 < X.length)
    (hpre : ∀ l, pre = some l → l.toFinset.card ≤ k ∧ ∀ x ∈ l, x < X.length) :
    countTrue (initMask s X pre) ≤ k := by
  have hl : ∀ x ∈ pre.getD [s % X.length], x < X.length := by
    cases pre with
    | none =>
      intro x hx
      simp only [Option.getD_none, List.mem_singleton] at hx
      subst hx
      exact Nat.mod_lt _ hn
    | some l =>
      intro x hx
      exact (hpre l rfl).2 x (by simpa using hx)
  rw [countTrue_initMask s X pre hl]
  cases pre with
  | none =>
    have hone : ((none : Option (List ℕ)).getD [s % X.length]).toFinset.card = 1 := by
      simp
    omega
  | some l => exact (hpre l rfl).1

/-! ### Claim theorems -/

/-- C2: for every valid input with `0 < k < n` (and, when supplied, a nonempty
pre-select list of at most `k` distinct in-range row identifiers), the index
sequence returned by `entrofy` has exactly `k` elements, is duplicate-free,
sorted strictly ascending, with every element in `[0, n)`. -/
theorem claim_C2 (seeds : ℕ → ℕ) (X : List (List ℚ)) (k n_samples : ℕ)
    (w q : Option (List ℚ)) (pre : Option (List ℕ))
    (hk0 : 0 < k) (hkn : k < X.length)
    (_hbin : ∀ r ∈ X, ∀ v ∈ r, v = 0 ∨ v = 1)
    (hw : ∀ x ∈ wFill X w, 0 ≤ x)
    (hq : ∀ x ∈ qFill X q, 0 ≤ x ∧ x ≤ 1)
    (hwl : (wFill X w).length = nAttr X)
    (hql : (qFill X q).length = nAttr X)
    (hns : 0 < n_samples)
    (hpre : ∀ l, pre = some l →
      l ≠ [] ∧ l.toFinset.card ≤ k ∧ ∀ x ∈ l, x < X.length) :
    ∃ s idx, entrofy seeds X k w q pre n_samples = .ok (s, .inr idx) ∧
      idx.length = k ∧ idx.Nodup ∧ List.Sorted (· < ·) idx ∧
      ∀ e ∈ idx, e < X.length := by
  have hfold := entrofy_eq_fold seeds X k w q pre n_samples hk0 hkn hw hq hwl hql hns
  obtain ⟨i, hiM, hfoldeq, hmax, hfirst⟩ :=
    fold_best_spec (fun t => trialPair seeds X k w q pre t)
      ((if pre.isSome then 1 else n_samples) - 1)
  rw [hfoldeq] at hfold
  refine ⟨trialScore seeds X k w q pre i, trialIdx seeds X k w q pre i, hfold,
    ?_, flatnonzero_nodup _, flatnonzero_sorted _, ?_⟩
  · rw [trialIdx, flatnonzero_length, trialMask]
    exact runLoop_count k X k (wFill X w) (qFill X q) _
      ((initMask_length (seeds i) X pre).trans rfl) hkn
      (initMask_bounds (seeds i) X k pre hk0 (by omega)
        (fun l hl => ⟨(hpre l hl).2.1, (hpre l hl).2.2⟩))
      (by
        have := initMask_bounds (seeds i) X k pre hk0 (by omega)
          (fun l hl => ⟨(hpre l hl).2.1, (hpre l hl).2.2⟩)
        omega)
  · intro e he
    have := mem_flatnonzero_lt _ _ he
    rwa [trialMask, runLoop_length, initMask_length] at this

/-- C10: with `0 < k < n` and a pre-select list of more than `k` distinct
in-range row identifiers, no validation error is raised, the greedy loop does
no iteration, and the returned index sequence is exactly the set of
pre-selected rows — hence longer than `k`. -/
theorem claim_C10 (seeds : ℕ → ℕ) (X : List (List ℚ)) (k n_samples : ℕ)
    (w q : Option (List ℚ)) (l : List ℕ)
    (hk0 : 0 < k) (hkn : k < X.length)
    (hw : ∀ x ∈ wFill X w, 0 ≤ x)
    (hq : ∀ x ∈ qFill X q, 0 ≤ x ∧ x ≤ 1)
    (hwl : (wFill X w).length = nAttr X)
    (hql : (qFill X q).length = nAttr X)
    (hns : 0 < n_samples)
    (hnodup : l.Nodup) (hbig : k < l.length) (hrange : ∀ x ∈ l, x < X.length) :
    ∃ s idx, entrofy seeds X k w q (some l) n_samples = .ok (s, .inr idx) ∧
      (∀ t, trialMask seeds X k w q (some l) t = initMask (seeds t) X (some l)) ∧
      idx.length = l.length ∧ k < idx.length ∧ (∀ e, e ∈ idx ↔ e ∈ l) := by
  have hcount : ∀ t, countTrue (initMask (seeds t) X (some l)) = l.length := by
    intro t
    rw [countTrue_initMask _ X (some l) (by simpa using hrange)]
    simp [List.toFinset_card_of_nodup hnodup]
  have hmask : ∀ t, trialMask seeds X k w q (some l) t = initMask (seeds t) X (some l) := by
    intro t
    rw [trialMask]
    exact runLoop_stop k X k (wFill X w) (qFill X q) _ hk0 (by rw [hcount t]; omega)
  have hfold := entrofy_eq_fold seeds X k w q (some l) n_samples hk0 hkn hw hq hwl hql hns
  simp only [Option.isSome_some, if_pos] at hfold
  rw [show (1 : ℕ) - 1 = 0 from rfl, List.range_zero, List.map_nil,
    List.foldl_nil] at hfold
  refine ⟨trialScore seeds X k w q (some l) 0, trialIdx seeds X k w q (some l) 0,
    hfold, hmask, ?_, ?_, ?_⟩
  · rw [trialIdx, flatnonzero_length, hmask 0, hcount 0]
  · rw [trialIdx, flatnonzero_length, hmask 0, hcount 0]
    exact hbig
  · intro e
    rw [trialIdx, hmask 0]
    exact mem_flatnonzero_initMask _ X (some l) e (by simpa using hrange)

/-- C9, counterexample: at `n = 2`, `k = 2` with `pre_selects = [0]` the `k == n`
branch returns the bare array `[0, 1]`, which `entrofy`'s tuple unpacking turns
into score `0` and the scalar solution `1` — the pre-selected row `0` does not
appear in any returned index sequence. -/
theorem claim_C9_counterexample :
    ¬ ∃ (s : ℝ) (idx : List ℕ),
      entrofy (fun _ => 0) [[1], [0]] 2 (some [1]) (some [1]) (some [0]) 15 =
        .ok (s, .inr idx) ∧ 0 ∈ idx := by
  rintro ⟨s, idx, heq, hmem⟩
  have heval : entrofy (fun _ => 0) [[1], [0]] 2 (some [1]) (some [1]) (some [0]) 15 =
      .ok ((((0 : ℕ)) : ℝ), .inl 1) := rfl
  rw [heval] at heq
  have hsnd := congrArg Prod.snd (Except.ok.inj heq)
  simp at hsnd

/-- C9, amended: for every valid input with `0 < k < n` and a nonempty list of
in-range pre-selected rows, every pre-selected row identifier appears in the
index sequence returned by `entrofy`. -/
theorem claim_C9_amended (seeds : ℕ → ℕ) (X : List (List ℚ)) (k n_samples : ℕ)
    (w q : Option (List ℚ)) (l : List ℕ)
    (hk0 : 0 < k) (hkn : k < X.length)
    (hw : ∀ x ∈ wFill X w, 0 ≤ x)
    (hq : ∀ x ∈ qFill X q, 0 ≤ x ∧ x ≤ 1)
    (hwl : (wFill X w).length = nAttr X)
    (hql : (qFill X q).length = nAttr X)
    (hns : 0 < n_samples)
    (_hne : l ≠ []) (hrange : ∀ x ∈ l, x < X.length) :
    ∃ s idx, entrofy seeds X k w q (some l) n_samples = .ok (s, .inr idx) ∧
      ∀ x ∈ l, x ∈ idx := by
  have hfold := entrofy_eq_fold seeds X k w q (some l) n_samples hk0 hkn hw hq hwl hql hns
  simp only [Option.isSome_some, if_pos] at hfold
  rw [show (1 : ℕ) - 1 = 0 from rfl, List.range_zero, List.map_nil,
    List.foldl_nil] at hfold
  refine ⟨trialScore seeds X k w q (some l) 0, trialIdx seeds X k w q (some l) 0,
    hfold, ?_⟩
  intro x hx
  rw [trialIdx, mem_flatnonzero, trialMask]
  apply runLoop_preserves_true
  rw [getD_initMask]
  simp [hx, hrange x hx]

/-- C8, counterexample: the run with `n = 3`, `k = 1` and `pre_selects = [0, 1]`
starts (and terminates) with selection size `i = 2 > k`, so neither
`0 ≤ i ≤ k at all times` nor `i = k at termination` holds for every greedy run
with `0 < k < n`. -/
theorem claim_C8_counterexample :
    countTrue (initMask 0 [[1], [0], [1]] (some [0, 1])) = 2 ∧
    runLoop 1 [[1], [0], [1]] 1 [1] [1] (initMask 0 [[1], [0], [1]] (some [0, 1])) =
      initMask 0 [[1], [0], [1]] (some [0, 1]) ∧
    (∃ s, _entrofy 0 [[1], [0], [1]] 1 (some [1]) (some [1]) (some [0, 1]) =
      .ok (.pair s [0, 1])) ∧
    (2 : ℕ) ≠ 1 :=
  ⟨rfl, rfl, ⟨_, rfl⟩, by decide⟩

/-- C8, amended: within a greedy run with `0 < k < n` whose initial mask holds
at most `k` rows, the selection size is non-decreasing from iteration to
iteration, stays at most `k` at all times, and equals `k` at termination. -/
theorem claim_C8_amended (X : List (List ℚ)) (k : ℕ) (w q : List ℚ)
    (y0 : List Bool) (hy : y0.length = X.length) (_hk0 : 0 < k)
    (hkn : k < X.length) (hc : countTrue y0 ≤ k) :
    (∀ j, countTrue (runLoop j X k w q y0) ≤ countTrue (runLoop (j + 1) X k w q y0)) ∧
    (∀ j, countTrue (runLoop j X k w q y0) ≤ k) ∧
    countTrue (runLoop k X k w q y0) = k :=
  ⟨fun j => runLoop_iter_monotone j X k w q y0,
   fun j => runLoop_count_le j X k w q y0 hy hkn hc,
   runLoop_count k X k w q y0 hy hkn hc (by omega)⟩

/-- C5: in an iteration of the greedy loop the chosen row is the argmax of the
`delta` array, where `delta[e] = obj(p_new[e], w, q) − obj(p, w, q)` for
unselected rows and `-∞` for already-selected rows; the chosen row is
unselected (never added twice), its delta is maximal, and every earlier row has
a strictly smaller delta (lowest index wins ties). -/
theorem claim_C5 (X : List (List ℚ)) (k : ℕ) (w q : List ℚ) (y : List Bool)
    (hy : y.length = X.length) (hc : countTrue y < k) (hkn : k ≤ X.length) :
    runStep X w q y = y.set (argmaxIdx (deltaVec X w q y)) true ∧
    argmaxIdx (deltaVec X w q y) < X.length ∧
    y.getD (argmaxIdx (deltaVec X w q y)) false = false ∧
    (∀ j, j < X.length → y.getD j false = true →
      (deltaVec X w q y).getD j ⊥ = ⊥) ∧
    (∀ j, j < X.length → y.getD j false = false →
      (deltaVec X w q y).getD j ⊥ =
        ((deltaRow w q (pVec X y) (countTrue y) (X.getD j [])) : WithBot ℝ)) ∧
    (∀ j, j < X.length →
      (deltaVec X w q y).getD j ⊥ ≤
        (deltaVec X w q y).getD (argmaxIdx (deltaVec X w q y)) ⊥) ∧
    (∀ j, j < argmaxIdx (deltaVec X w q y) →
      (deltaVec X w q y).getD j ⊥ <
        (deltaVec X w q y).getD (argmaxIdx (deltaVec X w q y)) ⊥) := by
  have hcX : countTrue y < X.length := lt_of_lt_of_le hc hkn
  obtain ⟨hidx, hfalse⟩ := runStep_picks_unselected X w q y hy hcX
  have hXpos : 0 < X.length := by omega
  have hnonnil : deltaVec X w q y ≠ [] := by
    intro hcon
    have := deltaVec_length X w q y
    rw [hcon] at this
    simp at this
    omega
  have hmaxeq : (deltaVec X w q y).getD (argmaxIdx (deltaVec X w q y)) ⊥ =
      listMax (deltaVec X w q y) := getD_argmaxIdx _ hnonnil
  refine ⟨rfl, hidx, hfalse, ?_, ?_, ?_, ?_⟩
  · intro j hj htrue
    rw [deltaVec_getD X w q y j hj, htrue, if_pos rfl]
  · intro j hj hfalsej
    rw [deltaVec_getD X w q y j hj, hfalsej]
    simp
  · intro j hj
    have hmem : (deltaVec X w q y).getD j ⊥ ∈ deltaVec X w q y := by
      rw [List.getD_eq_getElem _ _ (by rw [deltaVec_length]; exact hj)]
      exact List.getElem_mem _
    rw [hmaxeq]
    exact le_listMax _ _ hmem
  · intro j hj
    have hjlt : j < X.length := by
      have := hidx
      omega
    have hmem : (deltaVec X w q y).getD j ⊥ ∈ deltaVec X w q y := by
      rw [List.getD_eq_getElem _ _ (by rw [deltaVec_length]; exact hjlt)]
      exact List.getElem_mem _
    have hle : (deltaVec X w q y).getD j ⊥ ≤ listMax (deltaVec X w q y) :=
      le_listMax _ _ hmem
    have hne' : (deltaVec X w q y).getD j ⊥ ≠ listMax (deltaVec X w q y) :=
      argmaxIdx_first _ j hj
    rw [hmaxeq]
    exact lt_of_le_of_ne hle hne'

/-- A validation error raised by every `_entrofy` trial propagates through
`entrofy` unchanged (first trial raises, aborting the comprehension). -/
theorem entrofy_propagates_error (seeds : ℕ → ℕ) (X : List (List ℚ)) (k : ℕ)
    (w q : Option (List ℚ)) (pre : Option (List ℕ)) (n_samples : ℕ) (e : EErr)
    (hns : 0 < n_samples)
    (herr : ∀ seedval, _entrofy seedval X k w q pre = .error e) :
    entrofy seeds X k w q pre n_samples = .error e := by
  have hns' : 0 < (if pre.isSome then 1 else n_samples) := by
    cases pre with
    | none => exact hns
    | some l => exact Nat.one_pos
  obtain ⟨M, hM⟩ : ∃ M, (if pre.isSome then 1 else n_samples) = M + 1 :=
    ⟨(if pre.isSome then 1 else n_samples) - 1, by omega⟩
  simp only [entrofy, hM, List.range_succ_eq_map]
  rw [mapE_error_head (fun t => _entrofy (seeds t) X k w q pre) e 0
    ((List.range M).map Nat.succ) (herr (seeds 0))]
  rfl

/-- C3: with valid non-degenerate input (`0 < k < n`) and no pre-selects, the
score returned by `entrofy` with `n_samples = N ≥ 1` is the score of some trial
`i < N`, it dominates every trial's score, and every trial before `i` scored
strictly less — the returned solution is the earliest trial attaining the
maximum. -/
theorem claim_C3 (seeds : ℕ → ℕ) (X : List (List ℚ)) (k n_samples : ℕ)
    (w q : Option (List ℚ))
    (hk0 : 0 < k) (hkn : k < X.length)
    (hw : ∀ x ∈ wFill X w, 0 ≤ x)
    (hq : ∀ x ∈ qFill X q, 0 ≤ x ∧ x ≤ 1)
    (hwl : (wFill X w).length = nAttr X)
    (hql : (qFill X q).length = nAttr X)
    (hns : 1 ≤ n_samples) :
    ∃ (s : ℝ) (sol : List ℕ) (i : ℕ), i < n_samples ∧
      entrofy seeds X k w q none n_samples = .ok (s, .inr sol) ∧
      _entrofy (seeds i) X k w q none = .ok (.pair s sol) ∧
      (∀ j, j < n_samples → ∀ s' sol',
        _entrofy (seeds j) X k w q none = .ok (.pair s' sol') → s' ≤ s) ∧
      (∀ j, j < i → ∀ s' sol',
        _entrofy (seeds j) X k w q none = .ok (.pair s' sol') → s' < s) := by
  have hfold := entrofy_eq_fold seeds X k w q none n_samples hk0 hkn hw hq hwl hql hns
  rw [show (if (none : Option (List ℕ)).isSome then 1 else n_samples) = n_samples
    from rfl] at hfold
  obtain ⟨i, hiM, hfoldeq, hmax, hfirst⟩ :=
    fold_best_spec (fun t => trialPair seeds X k w q none t) (n_samples - 1)
  rw [hfoldeq] at hfold hmax hfirst
  have hiN : i < n_samples := by omega
  refine ⟨trialScore seeds X k w q none i, trialIdx seeds X k w q none i, i, hiN,
    hfold, _entrofy_ok_trial seeds X k w q none i hk0 hkn hw hq hwl hql,
    ?_, ?_⟩
  · intro j hj s' sol' heq
    have heq' := _entrofy_ok_trial seeds X k w q none j hk0 hkn hw hq hwl hql
    rw [heq] at heq'
    obtain ⟨hs', _⟩ := Ret.pair.inj (Except.ok.inj heq')
    rw [hs']
    exact hmax j (by omega)
  · intro j hj s' sol' heq
    have heq' := _entrofy_ok_trial seeds X k w q none j hk0 hkn hw hq hwl hql
    rw [heq] at heq'
    obtain ⟨hs', _⟩ := Ret.pair.inj (Except.ok.inj heq')
    rw [hs']
    exact hfirst j hj

/-- C6: any violated validation condition (`k` out of `(0, n]`, a negative
weight entry, a target entry outside `[0, 1]`, a length mismatch of `w` or `q`
against the attribute count) makes `_entrofy` — and hence `entrofy`, for any
seeds, pre-selects and positive `n_samples` — raise the assertion error of the
first violated condition in source order, before any selection work (the error
does not depend on seeds or pre-selects), with a distinct error identifying
each condition. -/
theorem claim_C6 (X : List (List ℚ)) (k : ℕ) (w q : Option (List ℚ))
    (hbad : ¬(0 < k ∧ k ≤ X.length) ∨ (∃ x ∈ wFill X w, x < 0) ∨
      ¬(∀ x ∈ qFill X q, 0 ≤ x ∧ x ≤ 1) ∨
      (wFill X w).length ≠ nAttr X ∨ (qFill X q).length ≠ nAttr X) :
    ∃ e : EErr,
      (e = .badK ∨ e = .negW ∨ e = .badQ ∨ e = .lenW ∨ e = .lenQ) ∧
      (∀ seedval pre, _entrofy seedval X k w q pre = .error e) ∧
      (∀ seeds pre n_samples, 0 < n_samples →
        entrofy seeds X k w q pre n_samples = .error e) ∧
      (e = .badK ↔ ¬(0 < k ∧ k ≤ X.length)) ∧
      (e = .negW ↔ ((0 < k ∧ k ≤ X.length) ∧ ∃ x ∈ wFill X w, x < 0)) ∧
      (e = .badQ ↔ ((0 < k ∧ k ≤ X.length) ∧ ¬(∃ x ∈ wFill X w, x < 0) ∧
        ¬(∀ x ∈ qFill X q, 0 ≤ x ∧ x ≤ 1))) ∧
      (e = .lenW ↔ ((0 < k ∧ k ≤ X.length) ∧ ¬(∃ x ∈ wFill X w, x < 0) ∧
        (∀ x ∈ qFill X q, 0 ≤ x ∧ x ≤ 1) ∧ (wFill X w).length ≠ nAttr X)) ∧
      (e = .lenQ ↔ ((0 < k ∧ k ≤ X.length) ∧ ¬(∃ x ∈ wFill X w, x < 0) ∧
        (∀ x ∈ qFill X q, 0 ≤ x ∧ x ≤ 1) ∧ (wFill X w).length = nAttr X ∧
        (qFill X q).length ≠ nAttr X)) := by
  by_cases h1 : 0 < k ∧ k ≤ X.length
  case neg =>
    have herr : ∀ seedval pre, _entrofy seedval X k w q pre = .error .badK := by
      intro seedval pre
      simp only [_entrofy]
      rw [if_pos h1]
    refine ⟨.badK, Or.inl rfl, herr,
      fun seeds pre ns hns =>
        entrofy_propagates_error seeds X k w q pre ns _ hns (fun sv => herr sv pre),
      iff_of_true rfl h1, ?_, ?_, ?_, ?_⟩
    · exact iff_of_false (by decide) (fun h => h1 h.1)
    · exact iff_of_false (by decide) (fun h => h1 h.1)
    · exact iff_of_false (by decide) (fun h => h1 h.1)
    · exact iff_of_false (by decide) (fun h => h1 h.1)
  case pos =>
  by_cases h2 : ∃ x ∈ wFill X w, x < 0
  case pos =>
    have herr : ∀ seedval pre, _entrofy seedval X k w q pre = .error .negW := by
      intro seedval pre
      simp only [_entrofy]
      rw [if_neg (not_not_intro h1), if_pos h2]
    refine ⟨.negW, Or.inr (Or.inl rfl), herr,
      fun seeds pre ns hns =>
        entrofy_propagates_error seeds X k w q pre ns _ hns (fun sv => herr sv pre),
      iff_of_false (by decide) (not_not_intro h1), iff_of_true rfl ⟨h1, h2⟩,
      ?_, ?_, ?_⟩
    · exact iff_of_false (by decide) (fun h => h.2.1 h2)
    · exact iff_of_false (by decide) (fun h => h.2.1 h2)
    · exact iff_of_false (by decide) (fun h => h.2.1 h2)
  case neg =>
  by_cases h3 : ∀ x ∈ qFill X q, 0 ≤ x ∧ x ≤ 1
  case neg =>
    have herr : ∀ seedval pre, _entrofy seedval X k w q pre = .error .badQ := by
      intro seedval pre
      simp only [_entrofy]
      rw [if_neg (not_not_intro h1), if_neg h2, if_pos h3]
    refine ⟨.badQ, Or.inr (Or.inr (Or.inl rfl)), herr,
      fun seeds pre ns hns =>
        entrofy_propagates_error seeds X k w q pre ns _ hns (fun sv => herr sv pre),
      iff_of_false (by decide) (not_not_intro h1),
      iff_of_false (by decide) (fun h => h2 h.2),
      iff_of_true rfl ⟨h1, h2, h3⟩, ?_, ?_⟩
    · exact iff_of_false (by decide) (fun h => h3 h.2.2.1)
    · exact iff_of_false (by decide) (fun h => h3 h.2.2.1)
  case pos =>
  by_cases h4 : (wFill X w).length = nAttr X
  case neg =>
    have herr : ∀ seedval pre, _entrofy seedval X k w q pre = .error .lenW := by
      intro seedval pre
      simp only [_entrofy]
      rw [if_neg (not_not_intro h1), if_neg h2, if_neg (not_not_intro h3),
        if_pos h4]
    refine ⟨.lenW, Or.inr (Or.inr (Or.inr (Or.inl rfl))), herr,
      fun seeds pre ns hns =>
        entrofy_propagates_error seeds X k w q pre ns _ hns (fun sv => herr sv pre),
      iff_of_false (by decide) (not_not_intro h1),
      iff_of_false (by decide) (fun h => h2 h.2),
      iff_of_false (by decide) (fun h => h.2.2 h3),
      iff_of_true rfl ⟨h1, h2, h3, h4⟩, ?_⟩
    · exact iff_of_false (by decide) (fun h => h4 h.2.2.2.1)
  case pos =>
  by_cases h5 : (qFill X q).length = nAttr X
  case neg =>
    have herr : ∀ seedval pre, _entrofy seedval X k w q pre = .error .lenQ := by
      intro seedval pre
      simp only [_entrofy]
      rw [if_neg (not_not_intro h1), if_neg h2, if_neg (not_not_intro h3),
        if_neg (not_not_intro h4), if_pos h5]
    exact ⟨.lenQ, Or.inr (Or.inr (Or.inr (Or.inr rfl))), herr,
      fun seeds pre ns hns =>
        entrofy_propagates_error seeds X k w q pre ns _ hns (fun sv => herr sv pre),
      iff_of_false (by decide) (not_not_intro h1),
      iff_of_false (by decide) (fun h => h2 h.2),
      iff_of_false (by decide) (fun h => h.2.2 h3),
      iff_of_false (by decide) (fun h => h.2.2.2 h4),
      iff_of_true rfl ⟨h1, h2, h3, h4, h5⟩⟩
  case pos =>
    exfalso
    rcases hbad with hb | hb | hb | hb | hb
    · exact hb h1
    · exact h2 hb
    · exact hb h3
    · exact hb h4
    · exact hb h5

/-! ### The objective function on aligned shapes -/


theorem zip_fuse_left (g : ℝ → ℝ → ℝ) (f : ℝ → ℝ → ℝ) (a b : List ℝ) :
    List.zipWith g a (List.zipWith f a b) = List.zipWith (fun x y => g x (f x y)) a b := by
  induction a generalizing b with
  | nil => simp
  | cons x xs ih =>
    cases b with
    | nil => simp
    | cons y ys => simp [ih]

theorem zip_fuse_left_map (g : ℝ → ℝ → ℝ) (m : ℝ → ℝ) (f : ℝ → ℝ → ℝ) (a b : List ℝ) :
    List.zipWith g (a.map m) (List.zipWith f a b) =
      List.zipWith (fun x y => g (m x) (f x y)) a b := by
  induction a generalizing b with
  | nil => simp
  | cons x xs ih =>
    cases b with
    | nil => simp
    | cons y ys => simp [ih]

theorem zip_fuse_both (h : ℝ → ℝ → ℝ) (f g : ℝ → ℝ → ℝ) (a b : List ℝ) :
    List.zipWith h (List.zipWith f a b) (List.zipWith g a b) =
      List.zipWith (fun x y => h (f x y) (g x y)) a b := by
  induction a generalizing b with
  | nil => simp
  | cons x xs ih =>
    cases b with
    | nil => simp
    | cons y ys => simp [ih]

theorem obj_eq_ok (p w q : List ℝ) (hp : p.length = w.length)
    (hq : q.length = w.length) :
    obj p w q = .ok (objCore p w q) := by
  have hpq : p.length = q.length := hp.trans hq.symm
  have hbind : ∀ {α β : Type} (x : α) (f : α → Except String β),
      (Except.ok x >>= f) = f x := fun x f => rfl
  have h1 : bc2 (fun x y => Real.log (x + amin) - Real.log (y + amin)) p q =
      .ok (List.zipWith (fun x y => Real.log (x + amin) - Real.log (y + amin)) p q) := by
    simp only [bc2]
    rw [if_pos hpq]
  have h2 : bc2 (· * ·) p
      (List.zipWith (fun x y => Real.log (x + amin) - Real.log (y + amin)) p q) =
      .ok (List.zipWith
        (fun x y => x * (Real.log (x + amin) - Real.log (y + amin))) p q) := by
    simp only [bc2]
    rw [if_pos (by rw [List.length_zipWith, ← hpq, min_self]), zip_fuse_left]
  have h3 : bc2 (fun x y => Real.log (x + amin) - Real.log (y + amin))
      (p.map (fun x => 1 - x)) (q.map (fun x => 1 - x)) =
      .ok (List.zipWith (fun x y =>
        Real.log (1 - x + amin) - Real.log (1 - y + amin)) p q) := by
    simp only [bc2]
    rw [if_pos (by simp [hpq]), List.zipWith_map]
  have h4 : bc2 (· * ·) (p.map (fun x => 1 - x))
      (List.zipWith (fun x y =>
        Real.log (1 - x + amin) - Real.log (1 - y + amin)) p q) =
      .ok (List.zipWith (fun x y =>
        (1 - x) * (Real.log (1 - x + amin) - Real.log (1 - y + amin))) p q) := by
    simp only [bc2]
    rw [if_pos (by rw [List.length_map, List.length_zipWith, ← hpq, min_self]),
      zip_fuse_left_map]
  have h5 : bc2 (· + ·)
      (List.zipWith (fun x y => x * (Real.log (x + amin) - Real.log (y + amin))) p q)
      (List.zipWith (fun x y =>
        (1 - x) * (Real.log (1 - x + amin) - Real.log (1 - y + amin))) p q) =
      .ok (List.zipWith Hterm p q) := by
    simp only [bc2]
    rw [if_pos (by rw [List.length_zipWith, List.length_zipWith]),
      zip_fuse_both]
    rfl
  have h6 : dotE (List.zipWith Hterm p q) w = .ok (dotl (List.zipWith Hterm p q) w) := by
    simp only [dotE]
    rw [if_pos (by rw [List.length_zipWith, ← hpq, min_self, hp])]
  simp only [obj]
  rw [h1]
  simp only [hbind]
  rw [h2]
  simp only [hbind]
  rw [h3]
  simp only [hbind]
  rw [h4]
  simp only [hbind]
  rw [h5]
  simp only [hbind]
  rw [h6]
  simp only [hbind]
  rfl

/-! ### Bounds on the objective value -/


theorem amin_pos : (0:ℝ) < amin := by rw [amin]; positivity

theorem amin_lt_one : amin < 1 := by
  rw [amin]
  norm_num

theorem log_diff_le (x y : ℝ) (hx : 0 < x + amin) (hy : 0 < y + amin) :
    Real.log (y + amin) - Real.log (x + amin) ≤ (y + amin) / (x + amin) - 1 := by
  rw [← Real.log_div (ne_of_gt hy) (ne_of_gt hx)]
  exact Real.log_le_sub_one_of_pos (div_pos hy hx)

theorem Hterm_self (a : ℝ) : Hterm a a = 0 := by
  rw [Hterm]
  ring

theorem Hterm_ge (a b : ℝ) (ha0 : 0 ≤ a) (ha1 : a ≤ 1) (hb0 : 0 ≤ b) (hb1 : b ≤ 1) :
    -(2 * amin) ≤ Hterm a b := by
  have hq := amin_pos
  have hu : (0:ℝ) < a + amin := by linarith
  have hv : (0:ℝ) < 1 - a + amin := by linarith
  have hub : (0:ℝ) < b + amin := by linarith
  have hvb : (0:ℝ) < 1 - b + amin := by linarith
  have T1 : a * (Real.log (b + amin) - Real.log (a + amin)) ≤
      a * ((b + amin) / (a + amin) - 1) :=
    mul_le_mul_of_nonneg_left (log_diff_le a b hu hub) ha0
  have T2 : (1 - a) * (Real.log (1 - b + amin) - Real.log (1 - a + amin)) ≤
      (1 - a) * ((1 - b + amin) / (1 - a + amin) - 1) :=
    mul_le_mul_of_nonneg_left (log_diff_le (1 - a) (1 - b) hv hvb) (by linarith)
  have e1 : a * ((b + amin) / (a + amin) - 1) = a * (b - a) / (a + amin) := by
    field_simp
  have e2 : (1 - a) * ((1 - b + amin) / (1 - a + amin) - 1) =
      (1 - a) * (a - b) / (1 - a + amin) := by
    field_simp
  have h2ab : 2 * a * b ≤ a + b := by
    nlinarith [mul_nonneg ha0 (sub_nonneg.2 hb1), mul_nonneg hb0 (sub_nonneg.2 ha1)]
  have hpoly : a * (b - a) / (a + amin) + (1 - a) * (a - b) / (1 - a + amin) ≤
      2 * amin := by
    rw [div_add_div _ _ (ne_of_gt hu) (ne_of_gt hv), div_le_iff₀ (by positivity)]
    nlinarith [mul_le_mul_of_nonneg_left h2ab hq.le, hq.le, sq_nonneg amin,
      mul_nonneg (mul_nonneg hq.le hq.le) hq.le]
  have hsum : -(Hterm a b) =
      a * (Real.log (b + amin) - Real.log (a + amin)) +
      (1 - a) * (Real.log (1 - b + amin) - Real.log (1 - a + amin)) := by
    rw [Hterm]
    ring
  have hneg : -(Hterm a b) ≤ 2 * amin := by
    rw [hsum]
    calc a * (Real.log (b + amin) - Real.log (a + amin)) +
        (1 - a) * (Real.log (1 - b + amin) - Real.log (1 - a + amin)) ≤
        a * ((b + amin) / (a + amin) - 1) +
          (1 - a) * ((1 - b + amin) / (1 - a + amin) - 1) := by linarith
      _ = a * (b - a) / (a + amin) + (1 - a) * (a - b) / (1 - a + amin) := by
          rw [e1, e2]
      _ ≤ 2 * amin := hpoly
  linarith

theorem dotl_cons (x y : ℝ) (xs ys : List ℝ) :
    dotl (x :: xs) (y :: ys) = x * y + dotl xs ys := by
  simp [dotl]

theorem dotl_Hterm_ge (p w q : List ℝ) (hp : p.length = w.length)
    (hq : q.length = w.length)
    (hpb : ∀ x ∈ p, 0 ≤ x ∧ x ≤ 1) (hqb : ∀ x ∈ q, 0 ≤ x ∧ x ≤ 1)
    (hw : ∀ x ∈ w, 0 ≤ x) :
    -(2 * amin) * w.sum ≤ dotl (List.zipWith Hterm p q) w := by
  induction p generalizing w q with
  | nil =>
    have hw0 : w = [] := List.length_eq_zero.1 hp.symm
    subst hw0
    simp [dotl]
  | cons a p' ih =>
    cases w with
    | nil => simp at hp
    | cons c w' =>
      cases q with
      | nil =>
        simp only [List.length_cons] at hq
        simp at hq
      | cons b q' =>
        simp only [List.length_cons, Nat.succ_inj] at hp hq
        rw [List.zipWith_cons_cons, dotl_cons, List.sum_cons]
        have hab := Hterm_ge a b (hpb a (by simp)).1 (hpb a (by simp)).2
          (hqb b (by simp)).1 (hqb b (by simp)).2
        have hcn : 0 ≤ c := hw c (by simp)
        have hterm : -(2 * amin) * c ≤ Hterm a b * c :=
          mul_le_mul_of_nonneg_right hab hcn
        have hrest := ih w' q' hp hq
          (fun x hx => hpb x (List.mem_cons_of_mem a hx))
          (fun x hx => hqb x (List.mem_cons_of_mem b hx))
          (fun x hx => hw x (List.mem_cons_of_mem c hx))
        have : -(2 * amin) * (c + w'.sum) =
            -(2 * amin) * c + -(2 * amin) * w'.sum := by ring
        rw [this]
        exact add_le_add hterm hrest

theorem objCore_le (p w q : List ℝ) (hp : p.length = w.length)
    (hq : q.length = w.length)
    (hpb : ∀ x ∈ p, 0 ≤ x ∧ x ≤ 1) (hqb : ∀ x ∈ q, 0 ≤ x ∧ x ≤ 1)
    (hw : ∀ x ∈ w, 0 ≤ x) :
    objCore p w q ≤ 2 * amin * w.sum := by
  have := dotl_Hterm_ge p w q hp hq hpb hqb hw
  rw [objCore]
  nlinarith [this]

theorem dotl_Hterm_zero (p w q : List ℝ) (hw : ∀ x ∈ w, 0 ≤ x)
    (hmatch : ∀ x ∈ p.zip (q.zip w), 0 < x.2.2 → x.1 = x.2.1) :
    dotl (List.zipWith Hterm p q) w = 0 := by
  induction p generalizing w q with
  | nil => simp [dotl]
  | cons a p' ih =>
    cases w with
    | nil => simp [dotl]
    | cons c w' =>
      cases q with
      | nil => simp [dotl]
      | cons b q' =>
        rw [List.zipWith_cons_cons, dotl_cons]
        have hcn : 0 ≤ c := hw c (by simp)
        have hhead : Hterm a b * c = 0 := by
          rcases eq_or_lt_of_le hcn with hc0 | hcpos
          · rw [← hc0, mul_zero]
          · have hab : a = b := hmatch (a, b, c) (by simp) hcpos
            rw [hab, Hterm_self, zero_mul]
        rw [hhead, zero_add]
        refine ih w' q' (fun x hx => hw x (List.mem_cons_of_mem c hx)) ?_
        intro x hx hpos
        refine hmatch x ?_ hpos
        rcases x with ⟨x1, x2, x3⟩
        simp only [List.zip_cons_cons, List.mem_cons]
        right
        exact hx

theorem objCore_zero (p w q : List ℝ) (hw : ∀ x ∈ w, 0 ≤ x)
    (hmatch : ∀ x ∈ p.zip (q.zip w), 0 < x.2.2 → x.1 = x.2.1) :
    objCore p w q = 0 := by
  rw [objCore, dotl_Hterm_zero p w q hw hmatch, neg_zero]


theorem dotl_elem_le (p w q : List ℝ) (c : ℝ)
    (hpb : ∀ x ∈ p, 0 ≤ x ∧ x ≤ 1) (hqb : ∀ x ∈ q, 0 ≤ x ∧ x ≤ 1)
    (hw : ∀ x ∈ w, 0 ≤ x)
    (hp : p.length = w.length) (hq : q.length = w.length)
    (hsum : dotl (List.zipWith Hterm p q) w = c) :
    ∀ x ∈ p.zip (q.zip w), Hterm x.1 x.2.1 * x.2.2 ≤ c + 2 * amin * w.sum := by
  induction p generalizing w q c with
  | nil => simp
  | cons a p' ih =>
    cases w with
    | nil => simp at hp
    | cons cw w' =>
      cases q with
      | nil =>
        simp only [List.length_cons] at hq
        simp at hq
      | cons b q' =>
        simp only [List.length_cons, Nat.succ_inj] at hp hq
        rw [List.zipWith_cons_cons, dotl_cons] at hsum
        have hwcw : 0 ≤ cw := hw cw (by simp)
        have hpbt : ∀ x ∈ p', 0 ≤ x ∧ x ≤ 1 :=
          fun x hx => hpb x (List.mem_cons_of_mem a hx)
        have hqbt : ∀ x ∈ q', 0 ≤ x ∧ x ≤ 1 :=
          fun x hx => hqb x (List.mem_cons_of_mem b hx)
        have hwt : ∀ x ∈ w', 0 ≤ x :=
          fun x hx => hw x (List.mem_cons_of_mem cw hx)
        have htail_ge : -(2 * amin) * w'.sum ≤ dotl (List.zipWith Hterm p' q') w' :=
          dotl_Hterm_ge p' w' q' hp hq hpbt hqbt hwt
        have hhead_ge : -(2 * amin) * cw ≤ Hterm a b * cw :=
          mul_le_mul_of_nonneg_right
            (Hterm_ge a b (hpb a (by simp)).1 (hpb a (by simp)).2
              (hqb b (by simp)).1 (hqb b (by simp)).2) hwcw
        have h2ecw : 0 ≤ 2 * amin * cw := by
          have := amin_pos.le
          nlinarith
        intro x hx
        rw [List.zip_cons_cons, List.zip_cons_cons] at hx
        rcases List.mem_cons.1 hx with rfl | hx'
        · show Hterm a b * cw ≤ c + 2 * amin * (cw :: w').sum
          rw [List.sum_cons]
          nlinarith [htail_ge, hsum]
        · have hxle := ih w' q' (c - Hterm a b * cw) hpbt hqbt hwt hp hq
            (by linarith) x hx'
          rw [List.sum_cons]
          nlinarith [hxle, hhead_ge]

/-! ### Broadcast reductions of the objective -/


theorem obj_eq_dotE (p w q : List ℝ) (hpq : p.length = q.length) :
    obj p w q = Except.map (fun d => -d) (dotE (List.zipWith Hterm p q) w) := by
  have hbind : ∀ {α β : Type} (x : α) (f : α → Except String β),
      (Except.ok x >>= f) = f x := fun x f => rfl
  have h1 : bc2 (fun x y => Real.log (x + amin) - Real.log (y + amin)) p q =
      .ok (List.zipWith (fun x y => Real.log (x + amin) - Real.log (y + amin)) p q) := by
    simp only [bc2]
    rw [if_pos hpq]
  have h2 : bc2 (· * ·) p
      (List.zipWith (fun x y => Real.log (x + amin) - Real.log (y + amin)) p q) =
      .ok (List.zipWith
        (fun x y => x * (Real.log (x + amin) - Real.log (y + amin))) p q) := by
    simp only [bc2]
    rw [if_pos (by rw [List.length_zipWith, ← hpq, min_self]), zip_fuse_left]
  have h3 : bc2 (fun x y => Real.log (x + amin) - Real.log (y + amin))
      (p.map (fun x => 1 - x)) (q.map (fun x => 1 - x)) =
      .ok (List.zipWith (fun x y =>
        Real.log (1 - x + amin) - Real.log (1 - y + amin)) p q) := by
    simp only [bc2]
    rw [if_pos (by simp [hpq]), List.zipWith_map]
  have h4 : bc2 (· * ·) (p.map (fun x => 1 - x))
      (List.zipWith (fun x y =>
        Real.log (1 - x + amin) - Real.log (1 - y + amin)) p q) =
      .ok (List.zipWith (fun x y =>
        (1 - x) * (Real.log (1 - x + amin) - Real.log (1 - y + amin))) p q) := by
    simp only [bc2]
    rw [if_pos (by rw [List.length_map, List.length_zipWith, ← hpq, min_self]),
      zip_fuse_left_map]
  have h5 : bc2 (· + ·)
      (List.zipWith (fun x y => x * (Real.log (x + amin) - Real.log (y + amin))) p q)
      (List.zipWith (fun x y =>
        (1 - x) * (Real.log (1 - x + amin) - Real.log (1 - y + amin))) p q) =
      .ok (List.zipWith Hterm p q) := by
    simp only [bc2]
    rw [if_pos (by rw [List.length_zipWith, List.length_zipWith]),
      zip_fuse_both]
    rfl
  simp only [obj]
  rw [h1]
  simp only [hbind]
  rw [h2]
  simp only [hbind]
  rw [h3]
  simp only [hbind]
  rw [h4]
  simp only [hbind]
  rw [h5]
  simp only [hbind]
  cases hdd : dotE (List.zipWith Hterm p q) w with
  | ok v => rfl
  | error e => rfl

theorem obj_eq_p1 (x : ℝ) (w q : List ℝ) (hq1 : q.length ≠ 1) :
    obj [x] w q = Except.map (fun d => -d) (dotE (q.map (fun y => Hterm x y)) w) := by
  have hbind : ∀ {α β : Type} (x : α) (f : α → Except String β),
      (Except.ok x >>= f) = f x := fun x f => rfl
  have hne : ∀ (z : ℝ) (l : List ℝ), l.length = q.length →
      ([z] : List ℝ).length ≠ l.length := by
    intro z l hl h
    rw [hl] at h
    exact hq1 h.symm
  have h1 : bc2 (fun a b => Real.log (a + amin) - Real.log (b + amin)) [x] q =
      .ok (q.map (fun y => Real.log (x + amin) - Real.log (y + amin))) := by
    simp only [bc2]
    rw [if_neg (hne x q rfl), if_pos (show ([x] : List ℝ).length = 1 from rfl)]
    rfl
  have h2 : bc2 (· * ·) [x]
      (q.map (fun y => Real.log (x + amin) - Real.log (y + amin))) =
      .ok (q.map (fun y => x * (Real.log (x + amin) - Real.log (y + amin)))) := by
    simp only [bc2]
    rw [if_neg (hne x _ (List.length_map q _)),
      if_pos (show ([x] : List ℝ).length = 1 from rfl), List.map_map]
    rfl
  have h3 : bc2 (fun a b => Real.log (a + amin) - Real.log (b + amin))
      (([x] : List ℝ).map (fun t => 1 - t)) (q.map (fun t => 1 - t)) =
      .ok (q.map (fun y => Real.log (1 - x + amin) - Real.log (1 - y + amin))) := by
    simp only [List.map_cons, List.map_nil, bc2]
    rw [if_neg (hne (1 - x) _ (List.length_map q _)),
      if_pos (show ([1 - x] : List ℝ).length = 1 from rfl), List.map_map]
    rfl
  have h4 : bc2 (· * ·) (([x] : List ℝ).map (fun t => 1 - t))
      (q.map (fun y => Real.log (1 - x + amin) - Real.log (1 - y + amin))) =
      .ok (q.map (fun y =>
        (1 - x) * (Real.log (1 - x + amin) - Real.log (1 - y + amin)))) := by
    simp only [List.map_cons, List.map_nil, bc2]
    rw [if_neg (hne (1 - x) _ (List.length_map q _)),
      if_pos (show ([1 - x] : List ℝ).length = 1 from rfl), List.map_map]
    rfl
  have h5 : bc2 (· + ·)
      (q.map (fun y => x * (Real.log (x + amin) - Real.log (y + amin))))
      (q.map (fun y =>
        (1 - x) * (Real.log (1 - x + amin) - Real.log (1 - y + amin)))) =
      .ok (q.map (fun y => Hterm x y)) := by
    simp only [bc2]
    rw [if_pos (by rw [List.length_map, List.length_map]),
      List.zipWith_map, List.zipWith_same]
    rfl
  simp only [obj]
  rw [h1]
  simp only [hbind]
  rw [h2]
  simp only [hbind]
  rw [h3]
  simp only [hbind]
  rw [h4]
  simp only [hbind]
  rw [h5]
  simp only [hbind]
  cases hdd : dotE (q.map (fun y => Hterm x y)) w with
  | ok v => rfl
  | error e => rfl

theorem obj_eq_q1 (p w : List ℝ) (y : ℝ) (hp1 : p.length ≠ 1) :
    obj p w [y] = Except.map (fun d => -d) (dotE (p.map (fun x => Hterm x y)) w) := by
  have hbind : ∀ {α β : Type} (x : α) (f : α → Except String β),
      (Except.ok x >>= f) = f x := fun x f => rfl
  have hne2 : ∀ (z : ℝ) (l : List ℝ), l.length = p.length →
      l.length ≠ ([z] : List ℝ).length := by
    intro z l hl h
    rw [hl] at h
    exact hp1 h
  have hne1 : ∀ (l : List ℝ), l.length = p.length → l.length ≠ 1 := by
    intro l hl h
    rw [hl] at h
    exact hp1 h
  have h1 : bc2 (fun a b => Real.log (a + amin) - Real.log (b + amin)) p [y] =
      .ok (p.map (fun x => Real.log (x + amin) - Real.log (y + amin))) := by
    simp only [bc2]
    rw [if_neg (hne2 y p rfl), if_neg (hne1 p rfl),
      if_pos (show ([y] : List ℝ).length = 1 from rfl)]
    rfl
  have h2 : bc2 (· * ·) p
      (p.map (fun x => Real.log (x + amin) - Real.log (y + amin))) =
      .ok (p.map (fun x => x * (Real.log (x + amin) - Real.log (y + amin)))) := by
    simp only [bc2]
    rw [if_pos (List.length_map p _).symm]
    have hzw : List.zipWith (· * ·) p
        (p.map (fun x => Real.log (x + amin) - Real.log (y + amin))) =
        List.zipWith (fun a b => a * (Real.log (b + amin) - Real.log (y + amin))) p p := by
      rw [← List.map_id p]
      rw [List.zipWith_map]
      simp
    rw [hzw, List.zipWith_same]
  have h3 : bc2 (fun a b => Real.log (a + amin) - Real.log (b + amin))
      (p.map (fun t => 1 - t)) (([y] : List ℝ).map (fun t => 1 - t)) =
      .ok (p.map (fun x => Real.log (1 - x + amin) - Real.log (1 - y + amin))) := by
    simp only [List.map_cons, List.map_nil, bc2]
    rw [if_neg (hne2 (1 - y) _ (List.length_map p _)),
      if_neg (hne1 _ (List.length_map p _)),
      if_pos (show ([1 - y] : List ℝ).length = 1 from rfl), List.map_map]
    rfl
  have h4 : bc2 (· * ·) (p.map (fun t => 1 - t))
      (p.map (fun x => Real.log (1 - x + amin) - Real.log (1 - y + amin))) =
      .ok (p.map (fun x =>
        (1 - x) * (Real.log (1 - x + amin) - Real.log (1 - y + amin)))) := by
    simp only [bc2]
    rw [if_pos (by rw [List.length_map, List.length_map]),
      List.zipWith_map, List.zipWith_same]
  have h5 : bc2 (· + ·)
      (p.map (fun x => x * (Real.log (x + amin) - Real.log (y + amin))))
      (p.map (fun x =>
        (1 - x) * (Real.log (1 - x + amin) - Real.log (1 - y + amin)))) =
      .ok (p.map (fun x => Hterm x y)) := by
    simp only [bc2]
    rw [if_pos (by rw [List.length_map, List.length_map]),
      List.zipWith_map, List.zipWith_same]
    rfl
  simp only [obj]
  rw [h1]
  simp only [hbind]
  rw [h2]
  simp only [hbind]
  rw [h3]
  simp only [hbind]
  rw [h4]
  simp only [hbind]
  rw [h5]
  simp only [hbind]
  cases hdd : dotE (p.map (fun x => Hterm x y)) w with
  | ok v => rfl
  | error e => rfl

theorem obj_err (p w q : List ℝ) (hpq : p.length ≠ q.length)
    (hp1 : p.length ≠ 1) (hq1 : q.length ≠ 1) :
    obj p w q = .error "operands could not be broadcast together" := by
  have h1 : bc2 (fun a b => Real.log (a + amin) - Real.log (b + amin)) p q =
      .error "operands could not be broadcast together" := by
    simp only [bc2]
    rw [if_neg hpq, if_neg hp1, if_neg hq1]
  simp only [obj]
  rw [h1]
  rfl



/-- Result length of broadcasting two 1-D shapes elementwise: equal lengths
pass through, a length-1 shape stretches to the other, anything else is a
broadcast error (`none`). -/
def bcLen (la lb : ℕ) : Option ℕ :=
  if la = lb then some la
  else if la = 1 then some lb
  else if lb = 1 then some la
  else none

/-- C7, amended: `obj(p, w, q)` returns a value exactly when the numpy shapes
broadcast — `p` and `q` lengths equal or one of them 1, and the broadcast
length equal to `w`'s length; any other length combination raises a shape
error.  In particular unequal lengths do not always fail. -/
theorem claim_C7_amended (p w q : List ℝ) :
    (∃ r, obj p w q = .ok r) ↔ bcLen p.length q.length = some w.length := by
  by_cases hpq : p.length = q.length
  · rw [obj_eq_dotE p w q hpq]
    simp only [bcLen]
    rw [if_pos hpq]
    simp only [dotE]
    by_cases hlw : (List.zipWith Hterm p q).length = w.length
    · have hl : p.length = w.length := by
        rw [List.length_zipWith, ← hpq, min_self] at hlw
        exact hlw
      rw [if_pos hlw]
      exact iff_of_true ⟨_, rfl⟩ (by rw [hl])
    · have hl : p.length ≠ w.length := by
        rw [List.length_zipWith, ← hpq, min_self] at hlw
        exact hlw
      rw [if_neg hlw]
      refine iff_of_false ?_ ?_
      · rintro ⟨r, hr⟩
        exact Except.noConfusion hr
      · intro h
        exact hl (Option.some.inj h)
  · by_cases hp1 : p.length = 1
    · obtain ⟨x, rfl⟩ := List.length_eq_one.1 hp1
      have hq1 : q.length ≠ 1 := fun h => hpq (by rw [h]; rfl)
      rw [obj_eq_p1 x w q hq1]
      simp only [bcLen]
      rw [if_neg hpq, if_pos hp1]
      simp only [dotE]
      by_cases hlw : (q.map (fun y => Hterm x y)).length = w.length
      · have hl : q.length = w.length := by
          rw [List.length_map] at hlw
          exact hlw
        rw [if_pos hlw]
        exact iff_of_true ⟨_, rfl⟩ (by rw [hl])
      · have hl : q.length ≠ w.length := by
          rw [List.length_map] at hlw
          exact hlw
        rw [if_neg hlw]
        refine iff_of_false ?_ ?_
        · rintro ⟨r, hr⟩
          exact Except.noConfusion hr
        · intro h
          exact hl (Option.some.inj h)
    · by_cases hq1 : q.length = 1
      · obtain ⟨y, rfl⟩ := List.length_eq_one.1 hq1
        rw [obj_eq_q1 p w y hp1]
        simp only [bcLen]
        rw [if_neg hpq, if_neg hp1, if_pos hq1]
        simp only [dotE]
        by_cases hlw : (p.map (fun x => Hterm x y)).length = w.length
        · have hl : p.length = w.length := by
            rw [List.length_map] at hlw
            exact hlw
          rw [if_pos hlw]
          exact iff_of_true ⟨_, rfl⟩ (by rw [hl])
        · have hl : p.length ≠ w.length := by
            rw [List.length_map] at hlw
            exact hlw
          rw [if_neg hlw]
          refine iff_of_false ?_ ?_
          · rintro ⟨r, hr⟩
            exact Except.noConfusion hr
          · intro h
            exact hl (Option.some.inj h)
      · rw [obj_err p w q hpq hp1 hq1]
        simp only [bcLen]
        rw [if_neg hpq, if_neg hp1, if_neg hq1]
        refine iff_of_false ?_ ?_
        · rintro ⟨r, hr⟩
          exact Except.noConfusion hr
        · intro h
          exact Option.noConfusion h

/-- C7, counterexample: `p` of length 1 and `w`, `q` of length 2 — lengths not
all equal — do not make `obj` fail: the length-1 `p` broadcasts and a value is
returned. -/
theorem claim_C7_counterexample :
    ([(0 : ℝ)].length ≠ ([1, 1] : List ℝ).length) ∧
      ∃ r, obj [0] [1, 1] [0, 0] = .ok r := by
  refine ⟨by simp, ?_⟩
  exact ⟨_, rfl⟩

/-- C4: the objective is at most 0 and vanishes exactly at matching
distributions, up to the negligible effect of the fixed `1e-200` additive log
floor, made explicit: for equal-length vectors with `p, q ∈ [0,1]` and
`w ≥ 0`, `obj` returns a value `r` with `r ≤ 2 · 1e-200 · Σw` (the floor's
explicit margin above 0); `r = 0` whenever `p_j = q_j` for every attribute `j`
with positive weight; and conversely `r = 0` forces every attribute's weighted
divergence contribution `w_j · H_j` below the same floor-order bound, so no
appreciably weighted attribute can diverge appreciably. -/
theorem claim_C4 (p w q : List ℝ)
    (hp : p.length = w.length) (hq : q.length = w.length)
    (hpb : ∀ x ∈ p, 0 ≤ x ∧ x ≤ 1) (hqb : ∀ x ∈ q, 0 ≤ x ∧ x ≤ 1)
    (hw : ∀ x ∈ w, 0 ≤ x) :
    ∃ r : ℝ, obj p w q = .ok r ∧ r ≤ 2 * amin * w.sum ∧
      ((∀ x ∈ p.zip (q.zip w), 0 < x.2.2 → x.1 = x.2.1) → r = 0) ∧
      (r = 0 → ∀ x ∈ p.zip (q.zip w),
        Hterm x.1 x.2.1 * x.2.2 ≤ 2 * amin * w.sum) := by
  refine ⟨objCore p w q, obj_eq_ok p w q hp hq,
    objCore_le p w q hp hq hpb hqb hw,
    fun hmatch => objCore_zero p w q hw hmatch, ?_⟩
  intro hr0 x hx
  have hd0 : dotl (List.zipWith Hterm p q) w = 0 := by
    have hneg : -(dotl (List.zipWith Hterm p q) w) = 0 := hr0
    linarith
  have hle := dotl_elem_le p w q 0 hpb hqb hw hp hq hd0 x hx
  linarith

/-- C1: at `k == n` the code is broken — `_entrofy` returns the bare index
array `np.arange(n)` instead of a `(score, indices)` pair (contradicting the
docstring), and `entrofy`'s tuple unpacking of that array raises a
`ValueError` for `n = 3`, so the documented full-range pair is never returned. -/
theorem claim_C1_bug :
    _entrofy 0 [[1], [0], [1]] 3 (some [1]) (some [1]) none = .ok (.bare [0, 1, 2]) ∧
    entrofy (fun _ => 0) [[1], [0], [1]] 3 (some [1]) (some [1]) none 15 =
      .error .valueError :=
  ⟨rfl, rfl⟩


/-! ### Witnesses at concrete inputs -/


/-- Witness for C2 at a concrete validated input. -/
theorem claim_C2_witness :
    ∃ s idx, entrofy (fun _ => 0) [[1], [0]] 1 (some [1]) (some [1]) none 1 =
        .ok (s, .inr idx) ∧
      idx.length = 1 ∧ idx.Nodup ∧ List.Sorted (· < ·) idx ∧ ∀ e ∈ idx, e < 2 :=
  claim_C2 (fun _ => 0) [[1], [0]] 1 1 (some [1]) (some [1]) none
    (by decide) (by decide) (by decide) (by decide) (by decide) (by decide)
    (by decide) (by decide) (fun l h => nomatch h)

/-- Witness for C3 at a concrete validated input. -/
theorem claim_C3_witness :
    ∃ (s : ℝ) (sol : List ℕ) (i : ℕ), i < 1 ∧
      entrofy (fun _ => 0) [[1], [0]] 1 (some [1]) (some [1]) none 1 =
        .ok (s, .inr sol) ∧
      _entrofy 0 [[1], [0]] 1 (some [1]) (some [1]) none = .ok (.pair s sol) ∧
      (∀ j, j < 1 → ∀ s' sol',
        _entrofy 0 [[1], [0]] 1 (some [1]) (some [1]) none = .ok (.pair s' sol') →
          s' ≤ s) ∧
      (∀ j, j < i → ∀ s' sol',
        _entrofy 0 [[1], [0]] 1 (some [1]) (some [1]) none = .ok (.pair s' sol') →
          s' < s) :=
  claim_C3 (fun _ => 0) [[1], [0]] 1 1 (some [1]) (some [1])
    (by decide) (by decide) (by decide) (by decide) (by decide) (by decide)
    (by decide)

/-- Witness for C4 at a concrete input. -/
theorem claim_C4_witness :
    ∃ r : ℝ, obj [0] [1] [0] = .ok r ∧ r ≤ 2 * amin * ([1] : List ℝ).sum ∧
      ((∀ x ∈ ([0] : List ℝ).zip (([0] : List ℝ).zip ([1] : List ℝ)),
          0 < x.2.2 → x.1 = x.2.1) → r = 0) ∧
      (r = 0 → ∀ x ∈ ([0] : List ℝ).zip (([0] : List ℝ).zip ([1] : List ℝ)),
        Hterm x.1 x.2.1 * x.2.2 ≤ 2 * amin * ([1] : List ℝ).sum) :=
  claim_C4 [0] [1] [0] rfl rfl (by simp) (by simp) (by simp)

/-- Witness for C5 at a concrete loop state. -/
theorem claim_C5_witness :
    runStep [[1], [0]] [1] [1] [true, false] =
      ([true, false] : List Bool).set
        (argmaxIdx (deltaVec [[1], [0]] [1] [1] [true, false])) true ∧
    argmaxIdx (deltaVec [[1], [0]] [1] [1] [true, false]) < 2 ∧
    ([true, false] : List Bool).getD
      (argmaxIdx (deltaVec [[1], [0]] [1] [1] [true, false])) false = false ∧
    (∀ j, j < 2 → ([true, false] : List Bool).getD j false = true →
      (deltaVec [[1], [0]] [1] [1] [true, false]).getD j ⊥ = ⊥) ∧
    (∀ j, j < 2 → ([true, false] : List Bool).getD j false = false →
      (deltaVec [[1], [0]] [1] [1] [true, false]).getD j ⊥ =
        ((deltaRow [1] [1] (pVec [[1], [0]] [true, false])
          (countTrue [true, false]) ([[1], [0]].getD j [])) : WithBot ℝ)) ∧
    (∀ j, j < 2 →
      (deltaVec [[1], [0]] [1] [1] [true, false]).getD j ⊥ ≤
        (deltaVec [[1], [0]] [1] [1] [true, false]).getD
          (argmaxIdx (deltaVec [[1], [0]] [1] [1] [true, false])) ⊥) ∧
    (∀ j, j < argmaxIdx (deltaVec [[1], [0]] [1] [1] [true, false]) →
      (deltaVec [[1], [0]] [1] [1] [true, false]).getD j ⊥ <
        (deltaVec [[1], [0]] [1] [1] [true, false]).getD
          (argmaxIdx (deltaVec [[1], [0]] [1] [1] [true, false])) ⊥) :=
  claim_C5 [[1], [0]] 2 [1] [1] [true, false] (by decide) (by decide) (by decide)

/-- Witness for C6 at a concrete invalid input (`k = 0`). -/
theorem claim_C6_witness :
    ∃ e : EErr,
      (e = .badK ∨ e = .negW ∨ e = .badQ ∨ e = .lenW ∨ e = .lenQ) ∧
      (∀ seedval pre, _entrofy seedval [[1]] 0 (some [1]) (some [1]) pre = .error e) ∧
      (∀ seeds pre n_samples, 0 < n_samples →
        entrofy seeds [[1]] 0 (some [1]) (some [1]) pre n_samples = .error e) ∧
      (e = .badK ↔ ¬(0 < 0 ∧ 0 ≤ [[(1 : ℚ)]].length)) ∧
      (e = .negW ↔ ((0 < 0 ∧ 0 ≤ [[(1 : ℚ)]].length) ∧
        ∃ x ∈ wFill [[1]] (some [1]), x < 0)) ∧
      (e = .badQ ↔ ((0 < 0 ∧ 0 ≤ [[(1 : ℚ)]].length) ∧
        ¬(∃ x ∈ wFill [[1]] (some [1]), x < 0) ∧
        ¬(∀ x ∈ qFill [[1]] (some [1]), 0 ≤ x ∧ x ≤ 1))) ∧
      (e = .lenW ↔ ((0 < 0 ∧ 0 ≤ [[(1 : ℚ)]].length) ∧
        ¬(∃ x ∈ wFill [[1]] (some [1]), x < 0) ∧
        (∀ x ∈ qFill [[1]] (some [1]), 0 ≤ x ∧ x ≤ 1) ∧
        (wFill [[1]] (some [1])).length ≠ nAttr [[1]])) ∧
      (e = .lenQ ↔ ((0 < 0 ∧ 0 ≤ [[(1 : ℚ)]].length) ∧
        ¬(∃ x ∈ wFill [[1]] (some [1]), x < 0) ∧
        (∀ x ∈ qFill [[1]] (some [1]), 0 ≤ x ∧ x ≤ 1) ∧
        (wFill [[1]] (some [1])).length = nAttr [[1]] ∧
        (qFill [[1]] (some [1])).length ≠ nAttr [[1]])) :=
  claim_C6 [[1]] 0 (some [1]) (some [1]) (Or.inl (by decide))

/-- Witness for the amended C8 at a concrete run. -/
theorem claim_C8_amended_witness :
    (∀ j, countTrue (runLoop j [[1], [0]] 1 [1] [1] [true, false]) ≤
      countTrue (runLoop (j + 1) [[1], [0]] 1 [1] [1] [true, false])) ∧
    (∀ j, countTrue (runLoop j [[1], [0]] 1 [1] [1] [true, false]) ≤ 1) ∧
    countTrue (runLoop 1 [[1], [0]] 1 [1] [1] [true, false]) = 1 :=
  claim_C8_amended [[1], [0]] 1 [1] [1] [true, false]
    (by decide) (by decide) (by decide) (by decide)

/-- Witness for the amended C9 at a concrete input. -/
theorem claim_C9_amended_witness :
    ∃ s idx, entrofy (fun _ => 0) [[1], [0]] 1 (some [1]) (some [1]) (some [0]) 5 =
        .ok (s, .inr idx) ∧ ∀ x ∈ ([0] : List ℕ), x ∈ idx :=
  claim_C9_amended (fun _ => 0) [[1], [0]] 1 5 (some [1]) (some [1]) [0]
    (by decide) (by decide) (by decide) (by decide) (by decide) (by decide)
    (by decide) (by decide) (by decide)

/-- Witness for C10 at a concrete input with three distinct pre-selected rows
and `k = 1`. -/
theorem claim_C10_witness :
    ∃ s idx, entrofy (fun _ => 0) [[1], [0], [1]] 1 (some [1]) (some [1])
        (some [0, 1]) 3 = .ok (s, .inr idx) ∧
      (∀ t, trialMask (fun _ => 0) [[1], [0], [1]] 1 (some [1]) (some [1])
        (some [0, 1]) t = initMask 0 [[1], [0], [1]] (some [0, 1])) ∧
      idx.length = 2 ∧ 1 < idx.length ∧ (∀ e, e ∈ idx ↔ e ∈ ([0, 1] : List ℕ)) :=
  claim_C10 (fun _ => 0) [[1], [0], [1]] 1 3 (some [1]) (some [1]) [0, 1]
    (by decide) (by decide) (by decide) (by decide) (by decide) (by decide)
    (by decide) (by decide) (by decide) (by decide)


end Entrofy
